import Mathlib

/-!
Verification of the fast-sttext segmentation and audio-assembly engines.

The Python sources (`src/text_processor.py`, `src/config.py`,
`src/audio_processor.py`) are shallowly embedded below.  Text is modelled
as `List Char`; Python's `len` on a `str` counts code points, which is
`List.length`, and `str.encode("utf-8")` length is `utf8Len`.  The regular
expressions used by the code are small and deterministic, and each
`re.sub` / `re.split` / `re.match` call is embedded as a left-to-right
scanning function with exactly the semantics of the Python regex engine on
the pattern in question (greedy runs, non-overlapping matches, resumption
after the matched region, no rescanning of replacement text).  The scans
are written as structural recursions over the character list, carrying the
scanner state (pending partial match) as an argument, so that every
definition evaluates by kernel reduction.

Python's `\s`, `\d` and case-insensitive matching are modelled on the
character ranges that actually occur in the patterns: `\s` is modelled by
the ASCII whitespace characters (space, tab, LF, VT, FF, CR) plus NBSP,
`\d` by the ASCII digits, `[A-Z]` is exactly ASCII (as in Python), and
case-insensitive matching lowercases ASCII and the Latin-1 uppercase range
(which covers the accented characters appearing in the patterns).

The NLTK Punkt sentence tokenizer is an external dependency, not part of
this repository; `create_segments` is therefore parameterised by the
sentence splitter, and the repository's own regex fallback splitter
(`_basic_sentence_split`) is embedded concretely and used to instantiate
concrete scenarios.

The pydub audio layer is modelled at the granularity the claims need: an
audio stream is a list of pieces, each either a silence of a given
duration in milliseconds or an opaque decoded clip.  Decoding and loudness
normalisation are external effects and are parameters of the embedding;
`add_fade` changes sample amplitudes only, which is the identity at the
piece level, and file export is modelled by returning the assembled
stream (`none` modelling the `return None` path that produces no file).
-/

/-- Python `\s` for the characters that can occur here: ASCII whitespace
(space, TAB, LF, VT, FF, CR) and NBSP. -/
def isWs (c : Char) : Bool :=
  c = ' ' || c = '\t' || c = '\n' || c = '\x0b' || c = '\x0c' || c = '\r' || c = '\xa0'

/-- Sentence-terminator characters, the class `[.!?]`. -/
def isTerm (c : Char) : Bool :=
  c = '.' || c = '!' || c = '?'

/-- The class `[A-Z]`, which is ASCII-only in Python regexes. -/
def isUpper (c : Char) : Bool :=
  'A' ≤ c && c ≤ 'Z'

/-- Python `\d` restricted to ASCII digits. -/
def isDigit (c : Char) : Bool :=
  '0' ≤ c && c ≤ '9'

/-- Python `\w` (word character) restricted to ASCII: letters, digits, `_`. -/
def isWordChar (c : Char) : Bool :=
  ('a' ≤ c && c ≤ 'z') || ('A' ≤ c && c ≤ 'Z') || isDigit c || c = '_'

/-- Lowercasing for case-insensitive matching: ASCII `A-Z` and the
Latin-1 uppercase range `À-Þ` (minus `×`), which covers the accented
letters in the chapter patterns. -/
def lowerCI (c : Char) : Char :=
  if 'A' ≤ c && c ≤ 'Z' then Char.ofNat (c.toNat + 32)
  else if c.toNat ≥ 0xC0 && c.toNat ≤ 0xDE && c.toNat ≠ 0xD7 then Char.ofNat (c.toNat + 32)
  else c

/-- Case-insensitive character equality, as under `re.IGNORECASE`. -/
def ciEq (a b : Char) : Bool :=
  lowerCI a = lowerCI b

/-- Case-insensitively test whether `pat` starts the list `s`. -/
def ciStarts : List Char → List Char → Bool
  | [], _ => true
  | _ :: _, [] => false
  | p :: ps, c :: cs => ciEq c p && ciStarts ps cs

/-- UTF-8 size in bytes of one character. -/
def utf8Size (c : Char) : Nat :=
  if c.toNat < 0x80 then 1
  else if c.toNat < 0x800 then 2
  else if c.toNat < 0x10000 then 3
  else 4

/-- UTF-8 size in bytes of a string, Python `len(s.encode("utf-8"))`. -/
def utf8Len (s : List Char) : Nat :=
  (s.map utf8Size).sum

/-- Python `str.strip()`: drop whitespace from both ends. -/
def pyStrip (s : List Char) : List Char :=
  ((s.dropWhile isWs).reverse.dropWhile isWs).reverse

/-- `re.sub(r"\s+", " ", text)`: every maximal whitespace run becomes one
space.  The single space is emitted at the last character of each run. -/
def collapseWs : List Char → List Char
  | [] => []
  | c :: rest =>
    if isWs c then
      match rest with
      | d :: _ => if isWs d then collapseWs rest else ' ' :: collapseWs rest
      | [] => [' ']
    else c :: collapseWs rest

/-- Scanner core for `re.sub(r"([.!?])\s*([.!?])", r"\1 \2", text)`.  The
state `some (t, ws)` means a terminator `t` has been read, followed so far
by the (reversed) whitespace buffer `ws`, and the scan is looking for a
second terminator; on finding one the pair is emitted separated by a
single space (the match is replaced) and the scan resumes after it. -/
def sppGo : Option (Char × List Char) → List Char → List Char
  | none, [] => []
  | some (t, ws), [] => t :: ws.reverse
  | none, c :: rest =>
    if isTerm c then sppGo (some (c, [])) rest else c :: sppGo none rest
  | some (t, ws), c :: rest =>
    if isTerm c then t :: ' ' :: c :: sppGo none rest
    else if isWs c then sppGo (some (t, c :: ws)) rest
    else t :: (ws.reverse ++ c :: sppGo none rest)

/-- `re.sub(r"([.!?])\s*([.!?])", r"\1 \2", text)`. -/
def subPunctPair (s : List Char) : List Char :=
  sppGo none s

/-- `re.sub(r"([.!?])([A-Z])", r"\1 \2", text)`: insert a space between a
terminator and an immediately following ASCII capital; resume after the
capital. -/
def subPunctUpper : List Char → List Char
  | [] => []
  | [c] => [c]
  | c :: d :: rest =>
    if isTerm c && isUpper d then c :: ' ' :: d :: subPunctUpper rest
    else c :: subPunctUpper (d :: rest)

/-- Fuelled scanner for `re.sub(re.escape(abbr), expansion, text,
flags=re.IGNORECASE)` with the literal pattern `p :: ps`: replace every
non-overlapping case-insensitive occurrence, scanning left to right.  The
fuel only serves to make the recursion structural; one unit is spent per
step while at least one character is consumed, so `s.length` suffices. -/
def replaceCIF (p : Char) (ps rep : List Char) : Nat → List Char → List Char
  | _, [] => []
  | 0, s => s
  | n + 1, c :: rest =>
    if ciStarts (p :: ps) (c :: rest) then
      rep ++ replaceCIF p ps rep n (rest.drop ps.length)
    else c :: replaceCIF p ps rep n rest

/-- `re.sub(re.escape(abbr), expansion, text, flags=re.IGNORECASE)` for the
pattern `p :: ps`. -/
def replaceCI (p : Char) (ps rep s : List Char) : List Char :=
  replaceCIF p ps rep s.length s

/-- The fixed abbreviation table of `clean_text`, in dict order. -/
def abbreviations : List (List Char × List Char) :=
  [("dr.".toList, "doutor".toList),
   ("dra.".toList, "doutora".toList),
   ("sr.".toList, "senhor".toList),
   ("sra.".toList, "senhora".toList),
   ("prof.".toList, "professor".toList),
   ("profa.".toList, "professora".toList),
   ("etc.".toList, "et cetera".toList),
   ("ex.".toList, "exemplo".toList),
   ("obs.".toList, "observação".toList)]

/-- Apply one abbreviation substitution (empty patterns cannot occur). -/
def applyAbbrev (s : List Char) : List Char × List Char → List Char
  | (p :: ps, rep) => replaceCI p ps rep s
  | ([], _) => s

/-- The abbreviation loop of `clean_text`. -/
def applyAbbrevs (s : List Char) : List Char :=
  abbreviations.foldl applyAbbrev s

/-- Opening markup of the number tag inserted by `clean_text`. -/
def sayAsOpen : List Char := "<say-as interpret-as=\"number\">".toList

/-- Closing markup of the number tag inserted by `clean_text`. -/
def sayAsClose : List Char := "</say-as>".toList

/-- Scanner core for `re.sub(r"\b(\d+)\b", r"<say-as ...>\1</say-as>",
text)`: wrap every maximal ASCII digit run whose neighbours are not word
characters.  `pend = some ds` holds the (reversed) digit run read so far,
which started at a word boundary; `pw` records whether the previous
character is a word character. -/
def nwGo (pend : Option (List Char)) (pw : Bool) : List Char → List Char
  | [] =>
    match pend with
    | some ds => sayAsOpen ++ ds.reverse ++ sayAsClose
    | none => []
  | c :: rest =>
    match pend with
    | some ds =>
      if isDigit c then nwGo (some (c :: ds)) true rest
      else if isWordChar c then ds.reverse ++ c :: nwGo none true rest
      else sayAsOpen ++ ds.reverse ++ sayAsClose ++ c :: nwGo none false rest
    | none =>
      if isDigit c && !pw then nwGo (some [c]) true rest
      else c :: nwGo none (isWordChar c) rest

/-- `re.sub(r"\b(\d+)\b", r"<say-as ...>\1</say-as>", text)`. -/
def numWrap (s : List Char) : List Char :=
  nwGo none false s

/-- `TextProcessor.clean_text`: collapse whitespace, space out terminator
pairs, space terminator-capital boundaries, expand abbreviations
case-insensitively, wrap standalone numbers, and strip. -/
def clean_text (s : List Char) : List Char :=
  pyStrip (numWrap (applyAbbrevs (subPunctUpper (subPunctPair (collapseWs s)))))

example : clean_text "  a   b ".toList = "a b".toList := by decide
example : clean_text "a.B".toList = "a. B".toList := by decide
example : clean_text "Dr. X!".toList = "doutor X!".toList := by decide
example : clean_text "5".toList = "<say-as interpret-as=\"number\">5</say-as>".toList := by
  decide
example : clean_text "a12b".toList = "a12b".toList := by decide
example : clean_text "dr. ..".toList = "doutor ..".toList := by decide
example : clean_text "doutor ..".toList = "doutor . .".toList := by decide
example : clean_text "obs.bs.".toList = "observaçãobs.".toList := by decide

/-- `[ivx]` under `re.IGNORECASE`. -/
def romanCh (c : Char) : Bool :=
  c = 'i' || c = 'v' || c = 'x' || c = 'I' || c = 'V' || c = 'X'

/-- `re.match(r"^\s*KW\s+(\d+|[ivx]+)\s*:?\s*(.*)$", line, re.IGNORECASE)`
succeeds if and only if, after optional whitespace, the keyword appears
case-insensitively, followed by at least one whitespace character and
then a digit or roman-numeral character (everything after that is
absorbed by the trailing optional groups). -/
def matchKwNum (kw l : List Char) : Bool :=
  let l1 := l.dropWhile isWs
  ciStarts kw l1 &&
    (match l1.drop kw.length with
     | c :: rest =>
       isWs c &&
         (match rest.dropWhile isWs with
          | d :: _ => isDigit d || romanCh d
          | [] => false)
     | [] => false)

/-- `re.match(r"^\s*(\d+)\.\s*(.*)$", line)` succeeds if and only if, after
optional whitespace, a maximal digit run of length at least one is
followed immediately by a literal dot. -/
def matchNumDot (l : List Char) : Bool :=
  let l1 := l.dropWhile isWs
  match l1 with
  | c :: _ => isDigit c && ((l1.dropWhile isDigit).head? = some '.')
  | [] => false

/-- One line matches some pattern of `chapter_patterns`, in order. -/
def isChapterLine (l : List Char) : Bool :=
  matchKwNum "capítulo".toList l || matchKwNum "chapter".toList l ||
    matchNumDot l || matchKwNum "parte".toList l

/-- The line loop of `TextProcessor.detect_chapters`: `ch` is
`current_chapter`, `cur` is `current_text`, `acc` the chapters list. -/
def detectLoop : List (List Char) → Nat → List Char → List (Nat × List Char) →
    List (Nat × List Char)
  | [], ch, cur, acc =>
    acc ++ (if pyStrip cur = [] then [] else [(ch, pyStrip cur)])
  | line :: rest, ch, cur, acc =>
    let l := pyStrip line
    if l = [] then detectLoop rest ch (cur ++ ['\n']) acc
    else if isChapterLine l then
      detectLoop rest (ch + 1) []
        (acc ++ (if pyStrip cur = [] then [] else [(ch, pyStrip cur)]))
    else detectLoop rest ch (cur ++ l ++ ['\n']) acc

/-- `TextProcessor.detect_chapters`. -/
def detect_chapters (text : List Char) : List (Nat × List Char) :=
  let cs := detectLoop (text.splitOn '\n') 1 [] []
  if cs = [] then [(1, text)] else cs

/-- The line loop of `TextProcessor.split_into_paragraphs`. -/
def paraLoop : List (List Char) → List Char → List (List Char)
  | [], cur => if cur = [] then [] else [pyStrip cur]
  | line :: rest, cur =>
    let l := pyStrip line
    if l = [] then
      if cur = [] then paraLoop rest [] else pyStrip cur :: paraLoop rest []
    else paraLoop rest (if cur = [] then l else cur ++ ' ' :: l)

/-- `TextProcessor.split_into_paragraphs`. -/
def split_into_paragraphs (t : List Char) : List (List Char) :=
  (paraLoop (t.splitOn '\n') []).filter (fun p => p ≠ [])

/-- Scanner state for `re.split(r"[.!?]+\s+", text)`: either accumulating
the current piece (reversed), or inside a terminator run (piece so far
plus the reversed run, whose classification is still unknown), or
skipping the whitespace of a completed separator. -/
inductive BsSt where
  | norm (acc : List Char)
  | trun (acc run : List Char)
  | sep

/-- Scanner core for `re.split(r"[.!?]+\s+", text)`: a maximal terminator
run followed by at least one whitespace character is a separator and is
discarded together with the whitespace run; everything else accumulates
into the current piece. -/
def bsGo : BsSt → List Char → List (List Char)
  | .norm acc, [] => [acc.reverse]
  | .trun acc run, [] => [(run ++ acc).reverse]
  | .sep, [] => [[]]
  | .norm acc, c :: rest =>
    if isTerm c then bsGo (.trun acc [c]) rest else bsGo (.norm (c :: acc)) rest
  | .trun acc run, c :: rest =>
    if isTerm c then bsGo (.trun acc (c :: run)) rest
    else if isWs c then acc.reverse :: bsGo .sep rest
    else bsGo (.norm (c :: (run ++ acc))) rest
  | .sep, c :: rest =>
    if isWs c then bsGo .sep rest
    else if isTerm c then bsGo (.trun [] [c]) rest
    else bsGo (.norm [c]) rest

/-- The raw pieces of `re.split(r"[.!?]+\s+", text)`. -/
def splitPieces (s : List Char) : List (List Char) :=
  bsGo (.norm []) s

/-- `TextProcessor._basic_sentence_split`: the split pieces, stripped,
with empty results dropped. -/
def basic_sentence_split (s : List Char) : List (List Char) :=
  ((splitPieces s).map pyStrip).filter (fun t => t ≠ [])

/-- Same scan as `splitPieces`, but keeping the text in place and writing
a single space over each matched separator run; used to state what the
fallback splitter preserves. -/
inductive BkSt where
  | norm
  | trun (run : List Char)
  | sep

/-- Scanner core replacing each `[.!?]+\s+` separator by one space. -/
def bkGo : BkSt → List Char → List Char
  | .norm, [] => []
  | .trun run, [] => run.reverse
  | .sep, [] => []
  | .norm, c :: rest =>
    if isTerm c then bkGo (.trun [c]) rest else c :: bkGo .norm rest
  | .trun run, c :: rest =>
    if isTerm c then bkGo (.trun (c :: run)) rest
    else if isWs c then ' ' :: bkGo .sep rest
    else run.reverse ++ c :: bkGo .norm rest
  | .sep, c :: rest =>
    if isWs c then bkGo .sep rest
    else if isTerm c then bkGo (.trun [c]) rest
    else c :: bkGo .norm rest

/-- The input with each `[.!?]+\s+` separator replaced by one space. -/
def blankSeps (s : List Char) : List Char :=
  bkGo .norm s

/-- `TextSegment` of `text_processor.py`. -/
structure TextSegment where
  text : List Char
  segment_type : List Char
  chapter_number : Nat
  paragraph_number : Nat
  sentence_number : Nat
deriving DecidableEq, Repr

/-- Python `enumerate(xs, n)`. -/
def enumFrom : Nat → List α → List (Nat × α)
  | _, [] => []
  | n, a :: as => (n, a) :: enumFrom (n + 1) as

/-- The sentence loop of `TextProcessor.create_segments` for one
paragraph: `cur` is `current_chunk`, `cnt` is `len(chunk_sentences)`. -/
def packGo (maxLength ch para : Nat) (cur : List Char) (cnt : Nat) :
    List (List Char) → List TextSegment
  | [] =>
    if cur = [] then []
    else [⟨pyStrip cur, "paragraph".toList, ch, para, cnt⟩]
  | s :: rest =>
    let cleaned := clean_text s
    if cur.length + cleaned.length + 1 > maxLength ∧ cur ≠ [] then
      ⟨pyStrip cur, "paragraph".toList, ch, para, cnt⟩ ::
        packGo maxLength ch para cleaned 1 rest
    else
      packGo maxLength ch para (if cur = [] then cleaned else cur ++ ' ' :: cleaned)
        (cnt + 1) rest

/-- `TextProcessor.create_segments`, parameterised by the sentence
splitter (`split_into_sentences` delegates to the external NLTK tokenizer
when it is available and to `basic_sentence_split` otherwise). -/
def create_segments (splitter : List Char → List (List Char)) (text : List Char)
    (maxLength : Nat) : List TextSegment :=
  (detect_chapters text).flatMap fun chp =>
    (enumFrom 1 (split_into_paragraphs chp.2)).flatMap fun pp =>
      packGo maxLength chp.1 pp.1 [] 0 (splitter pp.2)

/-- The `<speak>` wrapper of `create_ssml`. -/
def speakOpen : List Char := "<speak>".toList

/-- The `</speak>` wrapper of `create_ssml`. -/
def speakClose : List Char := "</speak>".toList

/-- The sentence-pause tag of `create_ssml`. -/
def pbTag : List Char := "<break time=\"0.8s\"/>".toList

/-- The paragraph-pause tag of `create_ssml`. -/
def parTag : List Char := "<break time=\"1.5s\"/>".toList

/-- Scanner state for `re.sub(r"([.!?])\s+", r"\1 <break .../> ", ssml)`:
`pend t` means terminator `t` was read and the scan is testing for
following whitespace; `skip` consumes the rest of the matched greedy
whitespace run. -/
inductive PsSt where
  | norm
  | pend (t : Char)
  | skip

/-- Scanner core for the sentence-pause substitution of `create_ssml`. -/
def psGo : PsSt → List Char → List Char
  | .norm, [] => []
  | .pend t, [] => [t]
  | .skip, [] => []
  | .norm, c :: rest =>
    if isTerm c then psGo (.pend c) rest else c :: psGo .norm rest
  | .pend t, c :: rest =>
    if isWs c then t :: ' ' :: pbTag ++ ' ' :: psGo .skip rest
    else if isTerm c then t :: psGo (.pend c) rest
    else t :: c :: psGo .norm rest
  | .skip, c :: rest =>
    if isWs c then psGo .skip rest
    else if isTerm c then psGo (.pend c) rest
    else c :: psGo .norm rest

/-- Scanner state for `re.sub(r"\n\s*\n", r"<break .../>", ssml)`: after a
first `\n`, `ws post sawNl` records whether a second `\n` has been seen
and the (reversed) whitespace read since the last `\n`; the greedy `\s*`
with the final literal `\n` consumes exactly through the last newline of
the whitespace run. -/
inductive PaSt where
  | norm
  | ws (post : List Char) (sawNl : Bool)

/-- Scanner core for the paragraph-pause substitution of `create_ssml`. -/
def paGo : PaSt → List Char → List Char
  | .norm, [] => []
  | .ws post sawNl, [] => (if sawNl then parTag else ['\n']) ++ post.reverse
  | .norm, c :: rest =>
    if c = '\n' then paGo (.ws [] false) rest else c :: paGo .norm rest
  | .ws post sawNl, c :: rest =>
    if c = '\n' then paGo (.ws [] true) rest
    else if isWs c then paGo (.ws (c :: post) sawNl) rest
    else ((if sawNl then parTag else ['\n']) ++ post.reverse) ++ c :: paGo .norm rest

/-- `TextProcessor.create_ssml`. -/
def create_ssml (text : List Char) (addPauses : Bool) : List Char :=
  let ssml := speakOpen ++ text ++ speakClose
  if addPauses then paGo .norm (psGo .norm ssml) else ssml

/-- Counter core for `re.findall(r"[.!?]+", text)`: number of maximal
terminator runs. -/
def termRunsGo (prevTerm : Bool) : List Char → Nat
  | [] => 0
  | c :: rest => (if isTerm c && !prevTerm then 1 else 0) + termRunsGo (isTerm c) rest

/-- `len(re.findall(r"[.!?]+", text))`. -/
def termRuns (s : List Char) : Nat :=
  termRunsGo false s

/-- Counter core for `re.findall(r"\b\d+\b", text)`: `inRun` means the
scan is inside a digit run that started at a word boundary; the run
counts when it ends at a word boundary. -/
def ntGo (pw inRun : Bool) : List Char → Nat
  | [] => if inRun then 1 else 0
  | c :: rest =>
    if inRun then
      if isDigit c then ntGo true true rest
      else if isWordChar c then ntGo true false rest
      else 1 + ntGo false false rest
    else if isDigit c && !pw then ntGo true true rest
    else ntGo (isWordChar c) false rest

/-- `len(re.findall(r"\b\d+\b", text))`. -/
def numTokens (s : List Char) : Nat :=
  ntGo false false s

/-- `Config.__estimate_ssml_size`: UTF-8 length plus
`15 + 25 * sentence_count + 35 * number_count`. -/
def estimate_ssml_size (text : List Char) : Nat :=
  utf8Len text + (15 + termRuns text * 25 + numTokens text * 35)

/-- The scenario input of the specification, section 8. -/
def scenarioInput : List Char :=
  "Chapter 1: A\n\nHello world. Second sentence.\n\nChapter 2: B\n\nThird sentence.".toList

example : basic_sentence_split "Hello world. Second sentence.".toList =
    ["Hello world".toList, "Second sentence.".toList] := by decide
example : (detect_chapters scenarioInput).map Prod.fst = [2, 3] := by decide
example : estimate_ssml_size "a b.".toList = 44 := by decide
example : create_ssml "Hi. Ok.".toList true =
    "<speak>Hi. <break time=\"0.8s\"/> Ok.</speak>".toList := by decide

/-- A piece of an audio stream: pydub `AudioSegment`s are modelled at the
granularity the assembly logic observes, as sequences of silences of
known duration and opaque decoded clips. -/
inductive Piece where
  | silence (ms : Nat)
  | clip (id : Nat)
deriving DecidableEq, Repr

/-- An audio stream. -/
abbrev Audio := List Piece

/-- Segment metadata as consumed by `audio_processor.py`: of the dict
produced by `get_segment_info`, only the `"chapter"` key is read. -/
structure SegInfo where
  chapter : Nat
deriving DecidableEq, Repr

/-- `Config.PAUSE_BETWEEN_SENTENCES` (milliseconds). -/
def PAUSE_BETWEEN_SENTENCES : Nat := 800

/-- `Config.PAUSE_BETWEEN_PARAGRAPHS` (milliseconds). -/
def PAUSE_BETWEEN_PARAGRAPHS : Nat := 2000

/-- `Config.PAUSE_BETWEEN_CHAPTERS` (milliseconds). -/
def PAUSE_BETWEEN_CHAPTERS : Nat := 3000

/-- `AudioProcessor.add_silence`. -/
def add_silence (ms : Nat) : Audio :=
  [Piece.silence ms]

/-- `AudioProcessor.add_fade`: fading alters sample amplitudes only, which
the piece-level model does not observe, so it is the identity here. -/
def add_fade (fadeInMs fadeOutMs : Nat) (a : Audio) : Audio :=
  a

/-- `AudioProcessor.concatenate_audio_segments`. -/
def concatenate_audio_segments (audioSegments : List Audio) (addPauses : Bool) : Audio :=
  match audioSegments with
  | [] => [Piece.silence 1000]
  | a :: rest =>
    rest.foldl
      (fun acc x => acc ++ (if addPauses then add_silence PAUSE_BETWEEN_SENTENCES else []) ++ x)
      a

/-- The decode-and-normalize loop of `create_audiobook_from_bytes`: empty
byte buffers are skipped, and a buffer whose decoding raises is logged
and skipped (`decode` returning `none`).  `bytes_to_audio_segment` and
`normalize_audio` call into pydub and are parameters of the embedding. -/
def decodeNormalize (decode : List Nat → Option Audio) (normalize : Audio → Audio)
    (audioBytesList : List (List Nat)) : List Audio :=
  audioBytesList.filterMap fun b => if b = [] then none else (decode b).map normalize

/-- The chapter-break loop of `create_audiobook_from_bytes`: walking the
decoded segments with index `i`, a `PAUSE_BETWEEN_CHAPTERS` silence is
appended as an ordinary list element whenever the metadata is present
(`segments_info` truthy and `i` in range) and reports a chapter number
different from the current one. -/
def addBreaks (infos : Option (List SegInfo)) :
    List Audio → Nat → Option Nat → List Audio
  | [], _, _ => []
  | a :: rest, i, cur =>
    match infos with
    | some l =>
      match l[i]? with
      | some inf =>
        match cur with
        | some c =>
          if inf.chapter ≠ c then
            add_silence PAUSE_BETWEEN_CHAPTERS :: a :: addBreaks infos rest (i + 1) (some inf.chapter)
          else a :: addBreaks infos rest (i + 1) (some inf.chapter)
        | none => a :: addBreaks infos rest (i + 1) (some inf.chapter)
      | none => a :: addBreaks infos rest (i + 1) cur
    | none => a :: addBreaks infos rest (i + 1) cur

/-- `AudioProcessor.create_audiobook_from_bytes`: returns the exported
stream, `none` modelling the `return None` path where no file is
produced. -/
def create_audiobook_from_bytes (decode : List Nat → Option Audio) (normalize : Audio → Audio)
    (audioBytesList : List (List Nat)) (segmentsInfo : Option (List SegInfo)) : Option Audio :=
  let audioSegments := decodeNormalize decode normalize audioBytesList
  if audioSegments = [] then none
  else
    some (add_fade 1000 2000
      (concatenate_audio_segments (addBreaks segmentsInfo audioSegments 0 none) true))

/-- Insertion into the Python dict of chapter buckets: dicts preserve
insertion order, and a new pair is appended to its chapter's bucket. -/
def groupInsert (g : List (Nat × List (List Nat × SegInfo))) (key : Nat)
    (v : List Nat × SegInfo) : List (Nat × List (List Nat × SegInfo)) :=
  match g with
  | [] => [(key, [v])]
  | (k, vs) :: rest =>
    if k = key then (k, vs ++ [v]) :: rest else (k, vs) :: groupInsert rest key v

/-- The grouping loop of `create_chapter_files`: pairs `(bytes, info)` at
aligned indices (`enumerate(segments_info)` filtered to indices below
`len(audio_bytes_list)`) are bucketed by chapter number. -/
def chapterGroups (audioBytesList : List (List Nat)) (l : List SegInfo) :
    List (Nat × List (List Nat × SegInfo)) :=
  (audioBytesList.zip l).foldl (fun g bv => groupInsert g bv.2.chapter bv) []

/-- `AudioProcessor.create_chapter_files`: with falsy metadata, fall back
to a single combined audiobook; otherwise emit one file per chapter in
`sorted(chapters.keys())` order, skipping chapters whose assembly
produced no file. -/
def create_chapter_files (decode : List Nat → Option Audio) (normalize : Audio → Audio)
    (audioBytesList : List (List Nat)) (segmentsInfo : Option (List SegInfo)) : List Audio :=
  match segmentsInfo with
  | none =>
    match create_audiobook_from_bytes decode normalize audioBytesList none with
    | some a => [a]
    | none => []
  | some [] =>
    match create_audiobook_from_bytes decode normalize audioBytesList (some []) with
    | some a => [a]
    | none => []
  | some l =>
    let groups := chapterGroups audioBytesList l
    let keys := List.insertionSort (· ≤ ·) (groups.map Prod.fst)
    keys.filterMap fun k =>
      match groups.lookup k with
      | some bucket =>
        create_audiobook_from_bytes decode normalize (bucket.map Prod.fst)
          (some (bucket.map Prod.snd))
      | none => none

/-- Reference form of the chapter-break loop used in proofs: the decoded
segments paired positionally with their metadata. -/
def mixBreaks : Option Nat → List Audio → List SegInfo → List Audio
  | _, [], _ => []
  | cur, a :: as, [] => a :: mixBreaks cur as []
  | cur, a :: as, inf :: is =>
    (match cur with
     | some c =>
       if inf.chapter ≠ c then [add_silence PAUSE_BETWEEN_CHAPTERS, a] else [a]
     | none => [a]) ++ mixBreaks (some inf.chapter) as is

/-- Reference form of pause concatenation used in proofs. -/
def joinPause : List Audio → Audio
  | [] => [Piece.silence 1000]
  | a :: rest => a ++ rest.flatMap (fun x => add_silence PAUSE_BETWEEN_SENTENCES ++ x)

/-- A decoder used to instantiate concrete scenarios: a nonempty byte
buffer decodes to one clip labelled by its first byte. -/
def decodeEx (b : List Nat) : Option Audio :=
  some [Piece.clip (b.headD 0)]

example : create_audiobook_from_bytes decodeEx id [] none = none := by decide
example : concatenate_audio_segments [] true = [Piece.silence 1000] := by decide
example : create_chapter_files decodeEx id [[10], [20]] (some [⟨2⟩, ⟨1⟩]) =
    [[Piece.clip 20], [Piece.clip 10]] := by decide
example : create_audiobook_from_bytes decodeEx id [[1], [2]] (some [⟨1⟩, ⟨2⟩]) =
    some [Piece.clip 1, Piece.silence 800, Piece.silence 3000, Piece.silence 800,
      Piece.clip 2] := by decide

/-- A concrete sentence splitter used to instantiate packing scenarios. -/
def splitterEx : List Char → List (List Char) :=
  fun _ => [['a'], ['b', '.']]

/-- The single segment that `create_segments` produces from `"a. b."` with
`max_length = 20`. -/
def c3seg : TextSegment :=
  ⟨"a b.".toList, "paragraph".toList, 1, 1, 2⟩

/-- Join a list of strings with single spaces (Python `" ".join`). -/
def joinSpace : List (List Char) → List Char
  | [] => []
  | [x] => x
  | x :: y :: rest => x ++ ' ' :: joinSpace (y :: rest)

/-- Scanner core splitting a string into its maximal non-whitespace runs;
`acc` is the (reversed) run being read. -/
def wordsGo (acc : Option (List Char)) : List Char → List (List Char)
  | [] =>
    match acc with
    | some w => [w.reverse]
    | none => []
  | c :: rest =>
    match acc with
    | some w =>
      if isWs c then w.reverse :: wordsGo none rest else wordsGo (some (c :: w)) rest
    | none =>
      if isWs c then wordsGo none rest else wordsGo (some [c]) rest

/-- The maximal non-whitespace runs of a string, in order: two strings
have the same `words` exactly when they agree up to whitespace
normalisation. -/
def words (s : List Char) : List (List Char) :=
  wordsGo none s

/-- Decidable case-insensitive occurrence of the pattern `p :: ps`. -/
def containsCI (p : Char) (ps : List Char) : List Char → Bool
  | [] => false
  | c :: rest => ciStarts (p :: ps) (c :: rest) || containsCI p ps rest

/-- The string contains an occurrence of some abbreviation-table pattern,
matched case-insensitively. -/
def hasAbbrev (s : List Char) : Bool :=
  abbreviations.any fun pr =>
    match pr.1 with
    | p :: ps => containsCI p ps s
    | [] => false

/-- The string contains an ASCII digit. -/
def hasDigit (s : List Char) : Bool :=
  s.any isDigit

/-!
Theorems.  Each claim of the specification audit is settled by one theorem
below (with a witness when the theorem carries hypotheses, and a
counterexample when the claim as stated fails on the code).
-/

/-- C4, counterexample.  The claim asserts that assembling an empty
segment-audio list yields a short fixed-duration silent output artifact,
"not an error or an absent output file".  In the code,
`create_audiobook_from_bytes` hits the `if not audio_segments: return
None` guard and produces no output file at all: the silent-placeholder
path of `concatenate_audio_segments` is unreachable for an empty input
list. -/
theorem c4_counterexample_empty_assembly_absent :
    create_audiobook_from_bytes decodeEx id [] none = none := by
  decide

/-- C4, amended.  `create_segments("", 4000)` does return an empty
sequence (for any sentence splitter), but
`create_audiobook_from_bytes` with an empty audio-bytes list returns
`None` — no output artifact — for every decoder, normaliser and metadata;
the short fixed-duration (1000 ms) silent placeholder exists only in the
inner helper `concatenate_audio_segments` on an empty list, a path the
early `return None` makes unreachable from an empty input. -/
theorem c4_amended_empty_input_behaviour :
    (∀ splitter : List Char → List (List Char), create_segments splitter [] 4000 = []) ∧
    (∀ (decode : List Nat → Option Audio) (normalize : Audio → Audio)
        (infos : Option (List SegInfo)),
        create_audiobook_from_bytes decode normalize [] infos = none) ∧
    concatenate_audio_segments [] true = [Piece.silence 1000] :=
  ⟨fun _ => rfl, fun _ _ _ => rfl, rfl⟩

/-- C1, counterexample.  On the specification's own scenario input,
`detect_chapters` increments `current_chapter` when it sees a heading
line, before any body text has been collected; since the input begins
with a heading, the first emitted chapter is numbered 2 and the second 3,
not 1 and 2 as the claim states. -/
theorem c1_counterexample_chapter_numbers :
    (create_segments basic_sentence_split scenarioInput 4000).map
        TextSegment.chapter_number ≠ [1, 2] := by
  decide

/-- C1, amended.  Chapter numbers are assigned from a sequential counter
in detection order and independent of the heading's own numerals, but the
counter is incremented at every detected heading before that heading's
body is collected, so with text that opens with a heading the first
chapter is numbered 2.  On the scenario input, `create_segments`
(instantiated with the repository's fallback sentence splitter) produces
exactly 2 TextSegments, with chapter_number sequence [2, 3] and
paragraph_number sequence [1, 1]. -/
theorem c1_amended_scenario_segments :
    create_segments basic_sentence_split scenarioInput 4000 =
      [⟨"Hello world Second sentence.".toList, "paragraph".toList, 2, 1, 2⟩,
       ⟨"Third sentence.".toList, "paragraph".toList, 3, 1, 1⟩] := by
  decide

/-- C9.  When `create_chapter_files` receives falsy segment metadata
(`None` or an empty list), it does not fail and produces no per-chapter
files: it assembles the single combined audiobook and returns a
one-element list with it, or an empty list when assembly produced no
file. -/
theorem c9_falsy_metadata_single_file_fallback
    (decode : List Nat → Option Audio) (normalize : Audio → Audio)
    (audioBytesList : List (List Nat)) (segmentsInfo : Option (List SegInfo))
    (h : segmentsInfo = none ∨ segmentsInfo = some []) :
    create_chapter_files decode normalize audioBytesList segmentsInfo =
      (create_audiobook_from_bytes decode normalize audioBytesList segmentsInfo).elim
        [] (fun a => [a]) ∧
    (create_chapter_files decode normalize audioBytesList segmentsInfo).length ≤ 1 := by
  rcases h with h | h <;> subst h <;>
    cases hA : create_audiobook_from_bytes decode normalize audioBytesList _ <;>
      simp [create_chapter_files, hA]

/-- C9, witness: the fallback at a concrete decodable one-segment input
with `None` metadata. -/
theorem c9_witness :
    create_chapter_files decodeEx id [[1]] none =
      (create_audiobook_from_bytes decodeEx id [[1]] none).elim [] (fun a => [a]) ∧
    (create_chapter_files decodeEx id [[1]] none).length ≤ 1 :=
  c9_falsy_metadata_single_file_fallback decodeEx id [[1]] none (Or.inl rfl)

/-- C8, counterexample.  The claim asserts that `create_chapter_files`
emits one artifact per chapter group "in the stable order of each chapter
number's first appearance".  The code iterates `sorted(chapters.keys())`:
with metadata listing chapter 2 first and chapter 1 second, the groups'
first-appearance order is [2, 1], yet the chapter-1 artifact (built from
the second input segment, decoding to clip 20) is emitted first. -/
theorem c8_counterexample_numeric_not_first_appearance :
    (chapterGroups [[10], [20]] [⟨2⟩, ⟨1⟩]).map Prod.fst = [2, 1] ∧
    create_chapter_files decodeEx id [[10], [20]] (some [⟨2⟩, ⟨1⟩]) =
      [[Piece.clip 20], [Piece.clip 10]] := by
  decide

/-- The keys of the chapter dict after one insertion: unchanged if the
key is present, else appended. -/
theorem groupInsert_keys (g : List (Nat × List (List Nat × SegInfo))) (key : Nat)
    (v : List Nat × SegInfo) :
    (groupInsert g key v).map Prod.fst =
      if key ∈ g.map Prod.fst then g.map Prod.fst else g.map Prod.fst ++ [key] := by
  induction g with
  | nil => simp [groupInsert]
  | cons hd tl ih =>
    obtain ⟨k, vs⟩ := hd
    by_cases hk : k = key
    · simp [groupInsert, hk]
    · by_cases hmem : key ∈ tl.map Prod.fst <;>
        simp [groupInsert, hk, ih, hmem, Ne.symm hk]

/-- Folding the grouping loop preserves distinctness of the dict keys. -/
theorem foldl_groupInsert_keys_nodup :
    ∀ (pairs : List (List Nat × SegInfo)) (g : List (Nat × List (List Nat × SegInfo))),
      (g.map Prod.fst).Nodup →
      ((pairs.foldl (fun g bv => groupInsert g bv.2.chapter bv) g).map Prod.fst).Nodup := by
  intro pairs
  induction pairs with
  | nil => intro g hg; simpa using hg
  | cons bv rest ih =>
    intro g hg
    simp only [List.foldl_cons]
    refine ih _ ?_
    rw [groupInsert_keys]
    split
    · exact hg
    · next hnot => simp [List.nodup_append, hg, hnot]

/-- A key is in the folded dict exactly if it was already there or occurs
as a chapter number among the remaining pairs. -/
theorem foldl_groupInsert_keys_mem :
    ∀ (pairs : List (List Nat × SegInfo)) (g : List (Nat × List (List Nat × SegInfo))) (k : Nat),
      (k ∈ (pairs.foldl (fun g bv => groupInsert g bv.2.chapter bv) g).map Prod.fst ↔
        k ∈ g.map Prod.fst ∨ k ∈ pairs.map fun bv => bv.2.chapter) := by
  intro pairs
  induction pairs with
  | nil => intro g k; simp
  | cons bv rest ih =>
    intro g k
    simp only [List.foldl_cons, List.map_cons, List.mem_cons]
    rw [ih, groupInsert_keys]
    split
    · constructor
      · tauto
      · rintro (h | h | h)
        · tauto
        · subst h; left; assumption
        · tauto
    · simp only [List.mem_append, List.mem_singleton]
      tauto

/-- C8, amended.  With non-falsy metadata, `create_chapter_files` groups
the aligned (bytes, info) pairs by chapter number and emits one assembly
attempt per distinct chapter number, but in ascending numeric order of
chapter number (`sorted(chapters.keys())`), not in order of first
appearance; the processed key list is sorted, duplicate-free, and covers
exactly the chapter numbers occurring among the aligned pairs. -/
theorem c8_amended_groups_sorted_by_chapter
    (decode : List Nat → Option Audio) (normalize : Audio → Audio)
    (audioBytesList : List (List Nat)) (i0 : SegInfo) (irest : List SegInfo) :
    List.Sorted (· ≤ ·)
        (List.insertionSort (· ≤ ·)
          ((chapterGroups audioBytesList (i0 :: irest)).map Prod.fst)) ∧
    (List.insertionSort (· ≤ ·)
        ((chapterGroups audioBytesList (i0 :: irest)).map Prod.fst)).Nodup ∧
    (∀ k, k ∈ List.insertionSort (· ≤ ·)
            ((chapterGroups audioBytesList (i0 :: irest)).map Prod.fst) ↔
          k ∈ (audioBytesList.zip (i0 :: irest)).map fun bv => bv.2.chapter) ∧
    create_chapter_files decode normalize audioBytesList (some (i0 :: irest)) =
      (List.insertionSort (· ≤ ·)
          ((chapterGroups audioBytesList (i0 :: irest)).map Prod.fst)).filterMap
        (fun k =>
          match (chapterGroups audioBytesList (i0 :: irest)).lookup k with
          | some bucket =>
            create_audiobook_from_bytes decode normalize (bucket.map Prod.fst)
              (some (bucket.map Prod.snd))
          | none => none) := by
  refine ⟨List.sorted_insertionSort _ _, ?_, ?_, rfl⟩
  · exact (List.perm_insertionSort _ _).symm.nodup
      (foldl_groupInsert_keys_nodup _ [] (by simp))
  · intro k
    rw [(List.perm_insertionSort _ _).mem_iff, chapterGroups,
      foldl_groupInsert_keys_mem]
    simp

/-- When every buffer is nonempty and decodes, the decode loop keeps all
segments, in order. -/
theorem decodeNormalize_forall2 {decode : List Nat → Option Audio}
    {bytes : List (List Nat)} {auds : List Audio}
    (h : List.Forall₂ (fun b a => b ≠ [] ∧ decode b = some a) bytes auds)
    (normalize : Audio → Audio) :
    decodeNormalize decode normalize bytes = auds.map normalize := by
  induction h with
  | nil => rfl
  | cons hba _ ih =>
    simp [decodeNormalize, hba.1, hba.2, List.filterMap_cons]
    simpa [decodeNormalize] using ih

/-- The indexed chapter-break loop agrees with its positional reference
form: index `i` into the metadata corresponds to pairing with the
metadata list with its first `i` entries dropped. -/
theorem addBreaks_eq_mixBreaks (l : List SegInfo) :
    ∀ (auds : List Audio) (i : Nat) (cur : Option Nat),
      addBreaks (some l) auds i cur = mixBreaks cur auds (l.drop i) := by
  intro auds
  induction auds with
  | nil => intro i cur; cases l.drop i <;> rfl
  | cons a rest ih =>
    intro i cur
    by_cases hlt : i < l.length
    · rw [List.drop_eq_getElem_cons hlt]
      have hget : l[i]? = some l[i] := List.getElem?_eq_getElem hlt
      cases cur with
      | none => simp [addBreaks, mixBreaks, hget, ih]
      | some c =>
        by_cases hc : l[i].chapter ≠ c <;>
          simp [addBreaks, mixBreaks, hget, hc, ih, add_silence]
    · have hdrop : l.drop i = [] := by
        rw [List.drop_eq_nil_iff]; omega
      have hdrop1 : l.drop (i + 1) = [] := by
        rw [List.drop_eq_nil_iff]; omega
      have hget : l[i]? = none := by
        rw [List.getElem?_eq_none_iff]; omega
      simp [addBreaks, mixBreaks, hget, hdrop, hdrop1, ih]

/-- The pause-inserting fold of `concatenate_audio_segments` in closed
form. -/
theorem concat_eq_joinPause (l : List Audio) :
    concatenate_audio_segments l true = joinPause l := by
  cases l with
  | nil => rfl
  | cons a rest =>
    simp only [concatenate_audio_segments, joinPause, if_pos]
    induction rest generalizing a with
    | nil => simp
    | cons x rs ih =>
      simp only [List.foldl_cons, List.flatMap_cons]
      rw [ih]
      simp [List.append_assoc]

/-- The reference chapter-break form never empties a nonempty segment
list. -/
theorem mixBreaks_ne_nil (cur : Option Nat) (a : Audio) (as : List Audio)
    (infos : List SegInfo) : mixBreaks cur (a :: as) infos ≠ [] := by
  cases infos with
  | nil => simp [mixBreaks]
  | cons inf is =>
    cases cur with
    | none => simp [mixBreaks]
    | some c =>
      by_cases h : inf.chapter ≠ c <;> simp [mixBreaks, h]

/-- Junction shape of the assembled stream: around any aligned adjacent
pair with differing chapter numbers, the pause-joined chapter-break mix
contains exactly inter-segment pause, chapter pause, inter-segment pause
between the two segments.  Stated on the flat form, which always begins
with one inter-segment pause. -/
theorem mix_junction :
    ∀ (Pa : List Audio) (Pl : List SegInfo) (cur : Option Nat)
      (a1 a2 : Audio) (Sa : List Audio) (Sl : List SegInfo) (i1 i2 : SegInfo),
      Pa.length = Pl.length → i1.chapter ≠ i2.chapter →
      ∃ pre post,
        (mixBreaks cur (Pa ++ a1 :: a2 :: Sa) (Pl ++ i1 :: i2 :: Sl)).flatMap
            (fun x => add_silence PAUSE_BETWEEN_SENTENCES ++ x) =
          Piece.silence PAUSE_BETWEEN_SENTENCES ::
            (pre ++ (a1 ++
              (Piece.silence PAUSE_BETWEEN_SENTENCES ::
               Piece.silence PAUSE_BETWEEN_CHAPTERS ::
               Piece.silence PAUSE_BETWEEN_SENTENCES :: (a2 ++ post)))) := by
  intro Pa
  induction Pa with
  | nil =>
    intro Pl cur a1 a2 Sa Sl i1 i2 hlen hch
    have hPl : Pl = [] := by
      cases Pl with
      | nil => rfl
      | cons x xs => simp at hlen
    subst hPl
    have hch2 : i2.chapter ≠ i1.chapter := Ne.symm hch
    cases cur with
    | none =>
      refine ⟨[], (mixBreaks (some i2.chapter) Sa Sl).flatMap
        (fun x => add_silence PAUSE_BETWEEN_SENTENCES ++ x), ?_⟩
      simp [mixBreaks, hch2, add_silence, List.append_assoc]
    | some c =>
      by_cases hc : i1.chapter ≠ c
      · refine ⟨[Piece.silence PAUSE_BETWEEN_CHAPTERS,
          Piece.silence PAUSE_BETWEEN_SENTENCES],
          (mixBreaks (some i2.chapter) Sa Sl).flatMap
            (fun x => add_silence PAUSE_BETWEEN_SENTENCES ++ x), ?_⟩
        simp [mixBreaks, hch2, hc, add_silence, List.append_assoc]
      · refine ⟨[], (mixBreaks (some i2.chapter) Sa Sl).flatMap
          (fun x => add_silence PAUSE_BETWEEN_SENTENCES ++ x), ?_⟩
        simp [mixBreaks, hch2, hc, add_silence, List.append_assoc]
  | cons a Pa ih =>
    intro Pl cur a1 a2 Sa Sl i1 i2 hlen hch
    cases Pl with
    | nil => simp at hlen
    | cons ip Pl =>
      have hlen2 : Pa.length = Pl.length := by simpa using hlen
      obtain ⟨pre, post, hIH⟩ := ih Pl (some ip.chapter) a1 a2 Sa Sl i1 i2 hlen2 hch
      cases cur with
      | none =>
        refine ⟨a ++ Piece.silence PAUSE_BETWEEN_SENTENCES :: pre, post, ?_⟩
        simp only [List.cons_append, mixBreaks, List.flatMap_cons, List.singleton_append,
          List.append_eq, List.nil_append]
        rw [hIH]
        simp [add_silence, List.append_assoc]
      | some c =>
        by_cases hc : ip.chapter ≠ c
        · refine ⟨Piece.silence PAUSE_BETWEEN_CHAPTERS ::
            Piece.silence PAUSE_BETWEEN_SENTENCES :: a ++
              Piece.silence PAUSE_BETWEEN_SENTENCES :: pre, post, ?_⟩
          simp only [List.cons_append, mixBreaks, hc, if_pos, List.flatMap_cons,
            List.flatMap_append, List.append_eq, List.nil_append]
          rw [hIH]
          simp [hc, add_silence, List.append_assoc]
        · refine ⟨a ++ Piece.silence PAUSE_BETWEEN_SENTENCES :: pre, post, ?_⟩
          simp only [List.cons_append, mixBreaks, hc, if_neg, List.flatMap_cons,
            List.flatMap_append, List.append_eq, List.nil_append]
          rw [hIH]
          simp [hc, add_silence, List.append_assoc]

/-- C10.  Because the chapter-break silence is inserted as an ordinary
element of the segment list before concatenation, the total silence
between two consecutive decodable segments with differing chapter
numbers is inter-segment pause + chapter pause + inter-segment pause
(800 + 3000 + 800 ms), not the chapter pause alone: the assembled stream
contains exactly the three silences between the two decoded segments. -/
theorem c10_chapter_break_pause_composition
    (decode : List Nat → Option Audio) (normalize : Audio → Audio)
    (P S : List (List Nat)) (Pa Sa : List Audio) (Pl Sl : List SegInfo)
    (b1 b2 : List Nat) (a1 a2 : Audio) (i1 i2 : SegInfo)
    (hP : List.Forall₂ (fun b a => b ≠ [] ∧ decode b = some a) P Pa)
    (hS : List.Forall₂ (fun b a => b ≠ [] ∧ decode b = some a) S Sa)
    (hb1 : b1 ≠ [] ∧ decode b1 = some a1) (hb2 : b2 ≠ [] ∧ decode b2 = some a2)
    (hlen : Pa.length = Pl.length) (hch : i1.chapter ≠ i2.chapter) :
    ∃ pre post,
      create_audiobook_from_bytes decode normalize (P ++ b1 :: b2 :: S)
          (some (Pl ++ i1 :: i2 :: Sl)) =
        some (pre ++ (normalize a1 ++
          Piece.silence PAUSE_BETWEEN_SENTENCES ::
          Piece.silence PAUSE_BETWEEN_CHAPTERS ::
          Piece.silence PAUSE_BETWEEN_SENTENCES :: (normalize a2 ++ post))) := by
  have hall : List.Forall₂ (fun b a => b ≠ [] ∧ decode b = some a)
      (P ++ b1 :: b2 :: S) (Pa ++ a1 :: a2 :: Sa) :=
    List.rel_append hP (List.Forall₂.cons hb1 (List.Forall₂.cons hb2 hS))
  have hdec := decodeNormalize_forall2 hall normalize
  have hmap : (Pa ++ a1 :: a2 :: Sa).map normalize =
      Pa.map normalize ++ normalize a1 :: normalize a2 :: Sa.map normalize := by
    simp
  obtain ⟨pre, post, hj⟩ := mix_junction (Pa.map normalize) Pl none (normalize a1)
    (normalize a2) (Sa.map normalize) Sl i1 i2 (by simpa using hlen) hch
  have hMne : mixBreaks none
      (Pa.map normalize ++ normalize a1 :: normalize a2 :: Sa.map normalize)
      (Pl ++ i1 :: i2 :: Sl) ≠ [] := by
    cases Pa with
    | nil =>
      exact mixBreaks_ne_nil none (normalize a1) (normalize a2 :: Sa.map normalize)
        (Pl ++ i1 :: i2 :: Sl)
    | cons pa0 par =>
      exact mixBreaks_ne_nil none (normalize pa0)
        (par.map normalize ++ normalize a1 :: normalize a2 :: Sa.map normalize)
        (Pl ++ i1 :: i2 :: Sl)
  obtain ⟨m, r, hMr⟩ : ∃ m r, mixBreaks none
      (Pa.map normalize ++ normalize a1 :: normalize a2 :: Sa.map normalize)
      (Pl ++ i1 :: i2 :: Sl) = m :: r := by
    cases h : mixBreaks none
        (Pa.map normalize ++ normalize a1 :: normalize a2 :: Sa.map normalize)
        (Pl ++ i1 :: i2 :: Sl) with
    | nil => exact absurd h hMne
    | cons m r => exact ⟨m, r, rfl⟩
  refine ⟨pre, post, ?_⟩
  simp only [create_audiobook_from_bytes]
  rw [hdec, hmap, if_neg (by simp :
    ¬(Pa.map normalize ++ normalize a1 :: normalize a2 :: Sa.map normalize = []))]
  rw [addBreaks_eq_mixBreaks, List.drop_zero, concat_eq_joinPause, hMr]
  rw [hMr, List.flatMap_cons] at hj
  simp only [add_silence, List.cons_append, List.nil_append] at hj
  have hj2 : m ++ r.flatMap (fun x => Piece.silence PAUSE_BETWEEN_SENTENCES :: x) =
      pre ++ (normalize a1 ++
        Piece.silence PAUSE_BETWEEN_SENTENCES ::
        Piece.silence PAUSE_BETWEEN_CHAPTERS ::
        Piece.silence PAUSE_BETWEEN_SENTENCES :: (normalize a2 ++ post)) := by
    rw [List.cons.injEq] at hj
    exact hj.2
  simp only [add_fade, joinPause, add_silence, List.singleton_append]
  rw [hj2]

/-- C10, witness: a concrete two-segment assembly across a chapter
boundary contains exactly 800 + 3000 + 800 ms of silence between the two
decoded clips. -/
theorem c10_witness :
    ∃ pre post,
      create_audiobook_from_bytes decodeEx id [[1], [2]]
          (some [⟨1⟩, ⟨2⟩]) =
        some (pre ++ (id [Piece.clip 1] ++
          Piece.silence PAUSE_BETWEEN_SENTENCES ::
          Piece.silence PAUSE_BETWEEN_CHAPTERS ::
          Piece.silence PAUSE_BETWEEN_SENTENCES :: (id [Piece.clip 2] ++ post))) :=
  c10_chapter_break_pause_composition decodeEx id [] [] [] [] [] []
    [1] [2] [Piece.clip 1] [Piece.clip 2] ⟨1⟩ ⟨2⟩
    List.Forall₂.nil List.Forall₂.nil ⟨by decide, rfl⟩ ⟨by decide, rfl⟩ rfl (by decide)

/-- Stripping never lengthens a string. -/
theorem pyStrip_length_le (s : List Char) : (pyStrip s).length ≤ s.length := by
  have h1 := (List.dropWhile_sublist (l := s) isWs).length_le
  have h2 := (List.dropWhile_sublist (l := (s.dropWhile isWs).reverse) isWs).length_le
  simp only [pyStrip, List.length_reverse] at *
  omega

/-- Invariant of the chunk-packing loop: any chunk holding at least two
sentences was built by appends that each respected the character bound,
so an emitted segment either fits in `maxLength` characters or holds
exactly one sentence. -/
theorem packGo_bound (maxLength ch para : Nat) :
    ∀ (sentences : List (List Char)) (cur : List Char) (cnt : Nat),
      (∀ s ∈ sentences, clean_text s ≠ []) →
      ((cur = [] ∧ cnt = 0) ∨
        (cur ≠ [] ∧ 1 ≤ cnt ∧ (2 ≤ cnt → cur.length ≤ maxLength))) →
      ∀ seg ∈ packGo maxLength ch para cur cnt sentences,
        seg.text.length ≤ maxLength ∨ seg.sentence_number = 1 := by
  intro sentences
  induction sentences with
  | nil =>
    intro cur cnt hcl hinv seg hseg
    simp only [packGo] at hseg
    split at hseg
    · simp at hseg
    · next hcur =>
      simp only [List.mem_singleton] at hseg
      subst hseg
      rcases hinv with ⟨h1, _⟩ | ⟨_, hge, hbnd⟩
      · exact absurd h1 hcur
      · rcases Nat.lt_or_ge cnt 2 with hlt | hge2
        · right; simpa using Nat.le_antisymm (by omega) hge
        · left
          exact le_trans (pyStrip_length_le cur) (hbnd hge2)
  | cons s rest ih =>
    intro cur cnt hcl hinv seg hseg
    have hclean : clean_text s ≠ [] := hcl s (by simp)
    simp only [packGo] at hseg
    split at hseg
    · next hover =>
      rcases List.mem_cons.mp hseg with rfl | h2
      · rcases hinv with ⟨h1, _⟩ | ⟨_, hge, hbnd⟩
        · exact absurd h1 hover.2
        · rcases Nat.lt_or_ge cnt 2 with hlt | hge2
          · right; simpa using Nat.le_antisymm (by omega) hge
          · left
            exact le_trans (pyStrip_length_le cur) (hbnd hge2)
      · refine ih (clean_text s) 1 (fun t ht => hcl t (by simp [ht])) ?_ seg h2
        exact Or.inr ⟨hclean, le_refl 1, by omega⟩
    · next hover =>
      rcases hinv with ⟨h1, h0⟩ | ⟨h1, hge, hbnd⟩
      · subst h1; subst h0
        refine ih (clean_text s) 1 (fun t ht => hcl t (by simp [ht])) ?_ seg
          (by simpa using hseg)
        exact Or.inr ⟨hclean, le_refl 1, by omega⟩
      · have hfit : cur.length + (clean_text s).length + 1 ≤ maxLength := by
          by_contra hno
          exact hover ⟨by omega, h1⟩
        refine ih (cur ++ ' ' :: clean_text s) (cnt + 1)
          (fun t ht => hcl t (by simp [ht])) ?_ seg (by simpa [h1] using hseg)
        refine Or.inr ⟨by simp, by omega, fun _ => ?_⟩
        simp only [List.length_append, List.length_cons]
        omega

/-- C3, amended.  The packer bounds chunks by Python `len` (code points),
not by the SSML size estimate: provided the splitter never yields a
sentence whose cleaned text is empty (true of both real splitters), every
produced segment has `len(text) <= max_bytes` or consists of exactly one
sentence. -/
theorem c3_amended_length_bound_or_single_sentence
    (splitter : List Char → List (List Char)) (text : List Char) (maxLength : Nat)
    (hsp : ∀ p s, s ∈ splitter p → clean_text s ≠ []) :
    ∀ seg ∈ create_segments splitter text maxLength,
      seg.text.length ≤ maxLength ∨ seg.sentence_number = 1 := by
  intro seg hseg
  simp only [create_segments, List.mem_flatMap] at hseg
  obtain ⟨chp, _, pp, _, hseg3⟩ := hseg
  exact packGo_bound maxLength chp.1 pp.1 (splitter pp.2) [] 0
    (fun s hs => hsp pp.2 s hs) (Or.inl ⟨rfl, rfl⟩) seg hseg3

/-- C3, counterexample.  With `max_bytes = 20`, the two cleaned sentences
of `"a. b."` pack into the single two-sentence chunk `"a b."` of length 4,
yet its estimated wrapped size is 44 > 20: the packer enforces only the
character-count bound, not the estimator bound the claim states. -/
theorem c3_counterexample_estimate_bound_violated :
    create_segments basic_sentence_split "a. b.".toList 20 = [c3seg] ∧
    c3seg.sentence_number = 2 ∧ 20 < estimate_ssml_size c3seg.text := by
  decide

/-- C3, witness: the amended bound at a concrete splitter and input. -/
theorem c3_witness :
    c3seg.text.length ≤ 20 ∨ c3seg.sentence_number = 1 :=
  c3_amended_length_bound_or_single_sentence splitterEx "a. b.".toList 20
    (by
      intro p s hs
      simp only [splitterEx, List.mem_cons, List.mem_singleton] at hs
      rcases hs with rfl | rfl | h
      · decide
      · decide
      · simp at h)
    c3seg (by decide)

/-- Every segment the packing loop emits carries the chapter and
paragraph numbers it was called with. -/
theorem packGo_tags (maxLength ch para : Nat) :
    ∀ (sentences : List (List Char)) (cur : List Char) (cnt : Nat),
      ∀ seg ∈ packGo maxLength ch para cur cnt sentences,
        seg.chapter_number = ch ∧ seg.paragraph_number = para := by
  intro sentences
  induction sentences with
  | nil =>
    intro cur cnt seg hseg
    simp only [packGo] at hseg
    split at hseg
    · simp at hseg
    · simp only [List.mem_singleton] at hseg
      subst hseg
      exact ⟨rfl, rfl⟩
  | cons s rest ih =>
    intro cur cnt seg hseg
    simp only [packGo] at hseg
    split at hseg
    · rcases List.mem_cons.mp hseg with rfl | h2
      · exact ⟨rfl, rfl⟩
      · exact ih _ _ seg h2
    · exact ih _ _ seg hseg

/-- The chapters accumulated by the detection loop carry strictly
increasing chapter numbers. -/
theorem detectLoop_fst_pairwise :
    ∀ (lines : List (List Char)) (ch : Nat) (cur : List Char)
      (acc : List (Nat × List Char)),
      List.Pairwise (fun a b => a.1 < b.1) acc → (∀ p ∈ acc, p.1 < ch) →
      List.Pairwise (fun a b => a.1 < b.1) (detectLoop lines ch cur acc) := by
  intro lines
  induction lines with
  | nil =>
    intro ch cur acc hp hlt
    simp only [detectLoop]
    split
    · simpa using hp
    · rw [List.pairwise_append]
      exact ⟨hp, by simp, by simpa using hlt⟩
  | cons line rest ih =>
    intro ch cur acc hp hlt
    simp only [detectLoop]
    split
    · exact ih ch _ acc hp hlt
    · split
      · refine ih (ch + 1) [] _ ?_ ?_
        · split
          · simpa using hp
          · rw [List.pairwise_append]
            exact ⟨hp, by simp, by simpa using hlt⟩
        · intro p hpmem
          rcases List.mem_append.mp hpmem with hmem | hmem
          · exact Nat.lt_succ_of_lt (hlt p hmem)
          · split at hmem
            · simp at hmem
            · simp only [List.mem_singleton] at hmem
              subst hmem
              exact Nat.lt_succ_self ch
      · exact ih ch _ acc hp hlt

/-- The chapter numbers returned by `detect_chapters` are strictly
increasing. -/
theorem detect_chapters_fst_pairwise (text : List Char) :
    List.Pairwise (fun a b => a.1 < b.1) (detect_chapters text) := by
  simp only [detect_chapters]
  split
  · simp
  · exact detectLoop_fst_pairwise _ 1 [] [] (by simp) (by simp)

/-- Members of `enumFrom n l` have index at least `n`. -/
theorem enumFrom_fst_ge : ∀ (l : List α) (n : Nat) (p : Nat × α),
    p ∈ enumFrom n l → n ≤ p.1 := by
  intro l
  induction l with
  | nil => intro n p h; simp [enumFrom] at h
  | cons a as ih =>
    intro n p h
    rcases List.mem_cons.mp h with rfl | h2
    · exact le_refl n
    · exact le_trans (Nat.le_succ n) (ih (n + 1) p h2)

/-- The indices of `enumFrom n l` are strictly increasing. -/
theorem enumFrom_fst_pairwise : ∀ (l : List α) (n : Nat),
    List.Pairwise (fun a b => a.1 < b.1) (enumFrom n l) := by
  intro l
  induction l with
  | nil => intro n; simp [enumFrom]
  | cons a as ih =>
    intro n
    refine List.Pairwise.cons ?_ (ih (n + 1))
    intro p hp
    exact lt_of_lt_of_le (Nat.lt_succ_self n) (enumFrom_fst_ge as (n + 1) p hp)

/-- C7.  For every splitter, input and size bound, the
(chapter_number, paragraph_number) pairs of the produced segment sequence
are monotonically non-decreasing in lexicographic order: the chapter
number never decreases, and the paragraph number decreases only where the
chapter number strictly increases. -/
theorem c7_segment_order_monotone (splitter : List Char → List (List Char))
    (text : List Char) (maxLength : Nat) :
    List.Pairwise (fun a b : TextSegment =>
        a.chapter_number < b.chapter_number ∨
          (a.chapter_number = b.chapter_number ∧
            a.paragraph_number ≤ b.paragraph_number))
      (create_segments splitter text maxLength) := by
  unfold create_segments
  rw [List.pairwise_flatMap]
  constructor
  · intro chp _
    rw [List.pairwise_flatMap]
    constructor
    · intro pp _
      apply List.pairwise_of_forall_mem_list
      intro x hx y hy
      obtain ⟨hx1, hx2⟩ := packGo_tags maxLength chp.1 pp.1 _ _ _ x hx
      obtain ⟨hy1, hy2⟩ := packGo_tags maxLength chp.1 pp.1 _ _ _ y hy
      exact Or.inr ⟨by rw [hx1, hy1], by rw [hx2, hy2]⟩
    · refine (enumFrom_fst_pairwise _ 1).imp_of_mem ?_
      intro p1 p2 _ _ hlt x hx y hy
      obtain ⟨hx1, hx2⟩ := packGo_tags maxLength chp.1 p1.1 _ _ _ x hx
      obtain ⟨hy1, hy2⟩ := packGo_tags maxLength chp.1 p2.1 _ _ _ y hy
      exact Or.inr ⟨by rw [hx1, hy1], by rw [hx2, hy2]; exact le_of_lt hlt⟩
  · refine (detect_chapters_fst_pairwise text).imp_of_mem ?_
    intro c1 c2 _ _ hlt x hx y hy
    simp only [List.mem_flatMap] at hx hy
    obtain ⟨p1, _, hx2⟩ := hx
    obtain ⟨p2, _, hy2⟩ := hy
    obtain ⟨hx1, _⟩ := packGo_tags maxLength c1.1 p1.1 _ _ _ x hx2
    obtain ⟨hy1, _⟩ := packGo_tags maxLength c2.1 p2.1 _ _ _ y hy2
    exact Or.inl (by rw [hx1, hy1]; exact hlt)

/-- UTF-8 length distributes over cons. -/
theorem utf8Len_cons (c : Char) (s : List Char) :
    utf8Len (c :: s) = utf8Size c + utf8Len s := by
  simp [utf8Len]

/-- UTF-8 length distributes over append. -/
theorem utf8Len_append (a b : List Char) :
    utf8Len (a ++ b) = utf8Len a + utf8Len b := by
  simp [utf8Len]

/-- Every character takes at least one UTF-8 byte. -/
theorem utf8Size_pos (c : Char) : 1 ≤ utf8Size c := by
  unfold utf8Size
  split
  · exact le_refl 1
  · split
    · omega
    · split <;> omega

/-- A whitespace character is never a sentence terminator. -/
theorem isWs_not_isTerm {c : Char} (h : isWs c = true) : isTerm c = false := by
  have hc : c = ' ' ∨ c = '\t' ∨ c = '\n' ∨ c = '\x0b' ∨ c = '\x0c' ∨ c = '\r' ∨
      c = '\xa0' := by
    simpa [isWs, or_assoc] using h
  rcases hc with rfl | rfl | rfl | rfl | rfl | rfl | rfl <;> rfl

/-- Size accounting for the sentence-pause substitution: each insertion
spends 22 bytes and removes a whitespace run of at least one byte, and
there is at most one insertion per maximal terminator run, so the output
exceeds the input by at most 25 bytes per terminator run (the pending
terminator's own bytes plus one credit of 25 form the state potential). -/
theorem psGo_len : ∀ (s : List Char) (st : PsSt),
    utf8Len (psGo st s) ≤
      (match st with
       | .norm => 0
       | .pend t => utf8Size t + 25
       | .skip => 0) +
      utf8Len s +
      25 * termRunsGo (match st with | .pend _ => true | _ => false) s := by
  intro s
  have hpb : utf8Len pbTag = 20 := by decide
  have hsp : utf8Size ' ' = 1 := by decide
  induction s with
  | nil =>
    intro st
    cases st with
    | norm => simp [psGo, utf8Len]
    | pend t => simp [psGo, utf8Len_cons, utf8Len, termRunsGo]
    | skip => simp [psGo, utf8Len]
  | cons c rest ih =>
    intro st
    cases st with
    | norm =>
      by_cases hterm : isTerm c
      · have h2 : utf8Len (psGo (.pend c) rest) ≤
            utf8Size c + 25 + utf8Len rest + 25 * termRunsGo true rest := ih (.pend c)
        rw [show psGo .norm (c :: rest) = psGo (.pend c) rest from by simp [psGo, hterm],
          utf8Len_cons,
          show termRunsGo false (c :: rest) = 1 + termRunsGo true rest from by
            simp [termRunsGo, hterm]]
        omega
      · have hterm2 : isTerm c = false := by simpa using hterm
        have h2 : utf8Len (psGo .norm rest) ≤
            0 + utf8Len rest + 25 * termRunsGo false rest := ih .norm
        rw [show psGo .norm (c :: rest) = c :: psGo .norm rest from by
            simp [psGo, hterm2],
          utf8Len_cons, utf8Len_cons,
          show termRunsGo false (c :: rest) = termRunsGo false rest from by
            simp [termRunsGo, hterm2]]
        omega
    | pend t =>
      show utf8Len (psGo (.pend t) (c :: rest)) ≤
        utf8Size t + 25 + utf8Len (c :: rest) + 25 * termRunsGo true (c :: rest)
      by_cases hws : isWs c
      · have hwt : isTerm c = false := isWs_not_isTerm hws
        have h2 : utf8Len (psGo .skip rest) ≤
            0 + utf8Len rest + 25 * termRunsGo false rest := ih .skip
        have hc := utf8Size_pos c
        rw [show psGo (.pend t) (c :: rest) =
              t :: ' ' :: pbTag ++ ' ' :: psGo .skip rest from by simp [psGo, hws]]
        simp only [utf8Len_cons, utf8Len_append, hpb, hsp]
        rw [show termRunsGo true (c :: rest) = termRunsGo false rest from by
            simp [termRunsGo, hwt]]
        omega
      · by_cases hterm : isTerm c
        · have h2 : utf8Len (psGo (.pend c) rest) ≤
              utf8Size c + 25 + utf8Len rest + 25 * termRunsGo true rest := ih (.pend c)
          rw [show psGo (.pend t) (c :: rest) = t :: psGo (.pend c) rest from by
              simp [psGo, hws, hterm],
            utf8Len_cons, utf8Len_cons,
            show termRunsGo true (c :: rest) = termRunsGo true rest from by
              simp [termRunsGo, hterm]]
          omega
        · have hterm2 : isTerm c = false := by simpa using hterm
          have h2 : utf8Len (psGo .norm rest) ≤
              0 + utf8Len rest + 25 * termRunsGo false rest := ih .norm
          rw [show psGo (.pend t) (c :: rest) = t :: c :: psGo .norm rest from by
              simp [psGo, hws, hterm2],
            utf8Len_cons, utf8Len_cons, utf8Len_cons,
            show termRunsGo true (c :: rest) = termRunsGo false rest from by
              simp [termRunsGo, hterm2]]
          omega
    | skip =>
      by_cases hws : isWs c
      · have hwt : isTerm c = false := isWs_not_isTerm hws
        have h2 : utf8Len (psGo .skip rest) ≤
            0 + utf8Len rest + 25 * termRunsGo false rest := ih .skip
        rw [show psGo .skip (c :: rest) = psGo .skip rest from by simp [psGo, hws],
          utf8Len_cons,
          show termRunsGo false (c :: rest) = termRunsGo false rest from by
            simp [termRunsGo, hwt]]
        omega
      · by_cases hterm : isTerm c
        · have h2 : utf8Len (psGo (.pend c) rest) ≤
              utf8Size c + 25 + utf8Len rest + 25 * termRunsGo true rest := ih (.pend c)
          rw [show psGo .skip (c :: rest) = psGo (.pend c) rest from by
              simp [psGo, hws, hterm],
            utf8Len_cons,
            show termRunsGo false (c :: rest) = 1 + termRunsGo true rest from by
              simp [termRunsGo, hterm]]
          omega
        · have hterm2 : isTerm c = false := by simpa using hterm
          have h2 : utf8Len (psGo .norm rest) ≤
              0 + utf8Len rest + 25 * termRunsGo false rest := ih .norm
          rw [show psGo .skip (c :: rest) = c :: psGo .norm rest from by
              simp [psGo, hws, hterm2],
            utf8Len_cons, utf8Len_cons,
            show termRunsGo false (c :: rest) = termRunsGo false rest from by
              simp [termRunsGo, hterm2]]
          omega

/-- A terminator-free string contains no terminator run. -/
theorem termRunsGo_eq_zero : ∀ (a : List Char), (∀ c ∈ a, isTerm c = false) →
    ∀ pb, termRunsGo pb a = 0 := by
  intro a
  induction a with
  | nil => intro _ pb; rfl
  | cons c rest ih =>
    intro h pb
    have hc : isTerm c = false := h c (by simp)
    simp [termRunsGo, hc, ih (fun d hd => h d (by simp [hd]))]

/-- A terminator-free prefix does not change the run count (scanning it
leaves the previous-character flag clear). -/
theorem termRunsGo_nonterm_append : ∀ (a : List Char), (∀ c ∈ a, isTerm c = false) →
    ∀ x, termRunsGo false (a ++ x) = termRunsGo false x := by
  intro a
  induction a with
  | nil => intro _ x; rfl
  | cons c rest ih =>
    intro h x
    have hc : isTerm c = false := h c (by simp)
    simp [termRunsGo, hc, ih (fun d hd => h d (by simp [hd])) x]

/-- A terminator-free suffix adds no terminator run. -/
theorem termRunsGo_append_nonterm_right :
    ∀ (x : List Char) (pb : Bool) (a : List Char), (∀ c ∈ a, isTerm c = false) →
      termRunsGo pb (x ++ a) = termRunsGo pb x := by
  intro x
  induction x with
  | nil =>
    intro pb a h
    simpa [termRunsGo] using termRunsGo_eq_zero a h pb
  | cons c rest ih =>
    intro pb a h
    simp [termRunsGo, ih (isTerm c) a h]

/-- The paragraph-break substitution is the identity on newline-free
text. -/
theorem paGo_norm_id : ∀ (s : List Char), (∀ c ∈ s, c ≠ '\n') →
    paGo .norm s = s := by
  intro s
  induction s with
  | nil => intro _; rfl
  | cons c rest ih =>
    intro h
    have hc : c ≠ '\n' := h c (by simp)
    simp [paGo, hc, ih (fun d hd => h d (by simp [hd]))]

/-- The sentence-pause substitution introduces no newline into
newline-free text. -/
theorem psGo_no_nl : ∀ (s : List Char) (st : PsSt),
    (∀ c ∈ s, c ≠ '\n') → (∀ t, st = .pend t → t ≠ '\n') →
    ∀ c ∈ psGo st s, c ≠ '\n' := by
  intro s
  have hpbnl : ∀ d ∈ pbTag, d ≠ '\n' := by decide
  induction s with
  | nil =>
    intro st hs hst d hd
    cases st with
    | norm => simp [psGo] at hd
    | pend t =>
      simp only [psGo, List.mem_singleton] at hd
      subst hd
      exact hst d rfl
    | skip => simp [psGo] at hd
  | cons c rest ih =>
    intro st hs hst d hd
    have hc : c ≠ '\n' := hs c (by simp)
    have hrest : ∀ e ∈ rest, e ≠ '\n' := fun e he => hs e (by simp [he])
    cases st with
    | norm =>
      by_cases hterm : isTerm c
      · rw [show psGo .norm (c :: rest) = psGo (.pend c) rest from by
          simp [psGo, hterm]] at hd
        exact ih (.pend c) hrest (by intro t' ht'; cases ht'; exact hc) d hd
      · rw [show psGo .norm (c :: rest) = c :: psGo .norm rest from by
          simp [psGo, hterm]] at hd
        rcases List.mem_cons.mp hd with rfl | hd2
        · exact hc
        · exact ih .norm hrest (by intro t' ht'; cases ht') d hd2
    | pend t =>
      by_cases hws : isWs c
      · rw [show psGo (.pend t) (c :: rest) =
            t :: ' ' :: pbTag ++ ' ' :: psGo .skip rest from by simp [psGo, hws]] at hd
        simp only [List.mem_cons, List.mem_append] at hd
        rcases hd with (rfl | rfl | hd2) | (rfl | hd3)
        · exact hst d rfl
        · decide
        · exact hpbnl d hd2
        · decide
        · exact ih .skip hrest (by intro t' ht'; cases ht') d hd3
      · by_cases hterm : isTerm c
        · rw [show psGo (.pend t) (c :: rest) = t :: psGo (.pend c) rest from by
            simp [psGo, hws, hterm]] at hd
          rcases List.mem_cons.mp hd with rfl | hd2
          · exact hst d rfl
          · exact ih (.pend c) hrest (by intro t' ht'; cases ht'; exact hc) d hd2
        · rw [show psGo (.pend t) (c :: rest) = t :: c :: psGo .norm rest from by
            simp [psGo, hws, hterm]] at hd
          rcases List.mem_cons.mp hd with rfl | hd2
          · exact hst d rfl
          · rcases List.mem_cons.mp hd2 with rfl | hd3
            · exact hc
            · exact ih .norm hrest (by intro t' ht'; cases ht') d hd3
    | skip =>
      by_cases hws : isWs c
      · rw [show psGo .skip (c :: rest) = psGo .skip rest from by
          simp [psGo, hws]] at hd
        exact ih .skip hrest (by intro t' ht'; cases ht') d hd
      · by_cases hterm : isTerm c
        · rw [show psGo .skip (c :: rest) = psGo (.pend c) rest from by
            simp [psGo, hws, hterm]] at hd
          exact ih (.pend c) hrest (by intro t' ht'; cases ht'; exact hc) d hd
        · rw [show psGo .skip (c :: rest) = c :: psGo .norm rest from by
            simp [psGo, hws, hterm]] at hd
          rcases List.mem_cons.mp hd with rfl | hd2
          · exact hc
          · exact ih .norm hrest (by intro t' ht'; cases ht') d hd2

/-- C6.  For every newline-free text (cleaned chunks contain no newline,
whitespace having been collapsed to single spaces), the SSML size
estimator over-approximates the actual markup size: UTF-8 length plus 15
envelope bytes plus 25 per terminator run plus 35 per standalone number
is at least the UTF-8 length of `create_ssml(text, add_pauses=True)`. -/
theorem c6_estimator_overapproximates (t : List Char) (h : ∀ c ∈ t, c ≠ '\n') :
    utf8Len (create_ssml t true) ≤ estimate_ssml_size t := by
  have hwrap : ∀ c ∈ speakOpen ++ t ++ speakClose, c ≠ '\n' := by
    intro c hc
    have hso : ∀ d ∈ speakOpen, d ≠ '\n' := by decide
    have hsc : ∀ d ∈ speakClose, d ≠ '\n' := by decide
    rcases List.mem_append.mp hc with hc2 | hc2
    · rcases List.mem_append.mp hc2 with hc3 | hc3
      · exact hso c hc3
      · exact h c hc3
    · exact hsc c hc2
  have hnl : ∀ c ∈ psGo .norm (speakOpen ++ t ++ speakClose), c ≠ '\n' :=
    psGo_no_nl _ .norm hwrap (by intro t' ht'; cases ht')
  have hpa := paGo_norm_id _ hnl
  have hlen : utf8Len (psGo .norm (speakOpen ++ t ++ speakClose)) ≤
      0 + utf8Len (speakOpen ++ t ++ speakClose) +
        25 * termRunsGo false (speakOpen ++ t ++ speakClose) :=
    psGo_len (speakOpen ++ t ++ speakClose) .norm
  have htr : termRunsGo false (speakOpen ++ t ++ speakClose) = termRuns t := by
    rw [List.append_assoc, termRunsGo_nonterm_append speakOpen (by decide),
      termRunsGo_append_nonterm_right t false speakClose (by decide)]
    rfl
  have hul : utf8Len (speakOpen ++ t ++ speakClose) = utf8Len t + 15 := by
    rw [utf8Len_append, utf8Len_append]
    have h1 : utf8Len speakOpen = 7 := by decide
    have h2 : utf8Len speakClose = 8 := by decide
    omega
  have hssml : create_ssml t true = psGo .norm (speakOpen ++ t ++ speakClose) := by
    simp only [create_ssml, if_true]
    exact hpa
  rw [hssml]
  rw [htr, hul] at hlen
  simp only [estimate_ssml_size]
  omega

/-- C6, witness: the estimate dominates the produced markup size at a
concrete cleaned chunk. -/
theorem c6_witness :
    utf8Len (create_ssml "Hi. Ok.".toList true) ≤
      estimate_ssml_size "Hi. Ok.".toList :=
  c6_estimator_overapproximates "Hi. Ok.".toList (by decide)

/-- An all-whitespace string has no words. -/
theorem wordsGo_ws_all : ∀ (w : List Char), (∀ c ∈ w, isWs c = true) →
    wordsGo none w = [] := by
  intro w
  induction w with
  | nil => intro _; rfl
  | cons c rest ih =>
    intro h
    simp [wordsGo, h c (by simp), ih (fun d hd => h d (by simp [hd]))]

/-- A single-space separator splits the word scan into independent
halves. -/
theorem wordsGo_append_space (b : List Char) :
    ∀ (a : List Char) (acc : Option (List Char)),
      wordsGo acc (a ++ ' ' :: b) = wordsGo acc a ++ wordsGo none b := by
  have hsp : isWs ' ' = true := by decide
  intro a
  induction a with
  | nil =>
    intro acc
    cases acc with
    | none => simp [wordsGo, hsp]
    | some w => simp [wordsGo, hsp]
  | cons c a2 ih =>
    intro acc
    cases acc with
    | none =>
      by_cases hws : isWs c
      · simp [wordsGo, hws, ih none]
      · simp [wordsGo, hws, ih (some [c])]
    | some w =>
      by_cases hws : isWs c
      · simp [wordsGo, hws, ih none]
      · simp [wordsGo, hws, ih (some (c :: w))]

/-- The words of a space-join are the concatenation of the words. -/
theorem words_joinSpace : ∀ (l : List (List Char)),
    words (joinSpace l) = l.flatMap words := by
  intro l
  induction l with
  | nil => rfl
  | cons x rest ih =>
    cases rest with
    | nil => simp [joinSpace]
    | cons y rest2 =>
      simp only [joinSpace, List.flatMap_cons]
      rw [words, wordsGo_append_space, ← words, ← words, ih]
      simp [List.flatMap_cons]

/-- A trailing all-whitespace suffix does not change the word scan. -/
theorem wordsGo_append_ws :
    ∀ (x : List Char) (acc : Option (List Char)) (w : List Char),
      (∀ c ∈ w, isWs c = true) → wordsGo acc (x ++ w) = wordsGo acc x := by
  intro x
  induction x with
  | nil =>
    intro acc w h
    cases acc with
    | none => simpa [wordsGo] using wordsGo_ws_all w h
    | some wd =>
      cases w with
      | nil => rfl
      | cons c rest =>
        simp [wordsGo, h c (by simp),
          wordsGo_ws_all rest (fun d hd => h d (by simp [hd]))]
  | cons c x2 ih =>
    intro acc w h
    cases acc with
    | none =>
      by_cases hws : isWs c <;> simp [wordsGo, hws, ih _ w h]
    | some wd =>
      by_cases hws : isWs c <;> simp [wordsGo, hws, ih _ w h]

/-- Dropping leading whitespace does not change the words. -/
theorem words_dropWhile_ws : ∀ (x : List Char),
    words (x.dropWhile isWs) = words x := by
  intro x
  induction x with
  | nil => rfl
  | cons c rest ih =>
    by_cases hws : isWs c
    · simpa [List.dropWhile_cons, hws, words, wordsGo] using ih
    · simp [List.dropWhile_cons, hws]

/-- Stripping does not change the words. -/
theorem words_pyStrip (x : List Char) : words (pyStrip x) = words x := by
  have hx1 : pyStrip x ++ ((x.dropWhile isWs).reverse.takeWhile isWs).reverse =
      x.dropWhile isWs := by
    simp only [pyStrip]
    rw [← List.reverse_append, List.takeWhile_append_dropWhile, List.reverse_reverse]
  have hws : ∀ c ∈ ((x.dropWhile isWs).reverse.takeWhile isWs).reverse, isWs c = true := by
    intro c hc
    exact List.mem_takeWhile_imp (List.mem_reverse.mp hc)
  calc words (pyStrip x)
      = words (pyStrip x ++ ((x.dropWhile isWs).reverse.takeWhile isWs).reverse) :=
        (wordsGo_append_ws _ none _ hws).symm
    _ = words (x.dropWhile isWs) := by rw [hx1]
    _ = words x := words_dropWhile_ws x

/-- Stripping the pieces and dropping the empties does not change the
concatenated words. -/
theorem flatMap_words_clean : ∀ (l : List (List Char)),
    (((l.map pyStrip).filter (fun t => t ≠ [])).flatMap words) = l.flatMap words := by
  intro l
  induction l with
  | nil => rfl
  | cons x rest ih =>
    by_cases hx : pyStrip x = []
    · have hwx : words x = [] := by
        rw [← words_pyStrip, hx]; rfl
      have hstep : ((x :: rest).map pyStrip).filter (fun t => t ≠ []) =
          (rest.map pyStrip).filter (fun t => t ≠ []) := by
        simp [List.filter_cons, hx]
      rw [hstep, ih, List.flatMap_cons, hwx]
      rfl
    · have hstep : ((x :: rest).map pyStrip).filter (fun t => t ≠ []) =
          pyStrip x :: (rest.map pyStrip).filter (fun t => t ≠ []) := by
        simp [List.filter_cons, hx]
      rw [hstep, List.flatMap_cons, List.flatMap_cons, ih, words_pyStrip]

/-- A split scan never returns an empty piece list. -/
theorem bsGo_ne_nil : ∀ (s : List Char) (st : BsSt), bsGo st s ≠ [] := by
  intro s
  induction s with
  | nil =>
    intro st
    cases st <;> simp [bsGo]
  | cons c rest ih =>
    intro st
    cases st with
    | norm acc =>
      by_cases hterm : isTerm c <;> simp [bsGo, hterm, ih]
    | trun acc run =>
      by_cases hterm : isTerm c
      · simp [bsGo, hterm, ih]
      · by_cases hws : isWs c <;> simp [bsGo, hterm, hws, ih]
    | sep =>
      by_cases hws : isWs c
      · simp [bsGo, hws, ih]
      · by_cases hterm : isTerm c <;> simp [bsGo, hws, hterm, ih]

/-- `joinSpace` over a cons with a nonempty tail. -/
theorem joinSpace_cons (x : List Char) (L : List (List Char)) (h : L ≠ []) :
    joinSpace (x :: L) = x ++ ' ' :: joinSpace L := by
  cases L with
  | nil => exact absurd rfl h
  | cons y rest => rfl

/-- Joining the split pieces with single spaces equals the input with
each separator run replaced by one space. -/
theorem joinSpace_bsGo : ∀ (s : List Char) (st : BsSt),
    joinSpace (bsGo st s) =
      (match st with
       | .norm acc => acc.reverse
       | .trun acc _ => acc.reverse
       | .sep => []) ++
      bkGo
        (match st with
         | .norm _ => BkSt.norm
         | .trun _ run => BkSt.trun run
         | .sep => BkSt.sep) s := by
  intro s
  induction s with
  | nil =>
    intro st
    cases st with
    | norm acc => simp [bsGo, bkGo, joinSpace]
    | trun acc run => simp [bsGo, bkGo, joinSpace]
    | sep => simp [bsGo, bkGo, joinSpace]
  | cons c rest ih =>
    intro st
    cases st with
    | norm acc =>
      by_cases hterm : isTerm c
      · rw [show bsGo (.norm acc) (c :: rest) = bsGo (.trun acc [c]) rest from by
            simp [bsGo, hterm],
          show bkGo BkSt.norm (c :: rest) = bkGo (BkSt.trun [c]) rest from by
            simp [bkGo, hterm]]
        exact ih (.trun acc [c])
      · rw [show bsGo (.norm acc) (c :: rest) = bsGo (.norm (c :: acc)) rest from by
            simp [bsGo, hterm],
          show bkGo BkSt.norm (c :: rest) = c :: bkGo BkSt.norm rest from by
            simp [bkGo, hterm]]
        rw [ih (.norm (c :: acc))]
        simp
    | trun acc run =>
      by_cases hterm : isTerm c
      · rw [show bsGo (.trun acc run) (c :: rest) = bsGo (.trun acc (c :: run)) rest from by
            simp [bsGo, hterm],
          show bkGo (BkSt.trun run) (c :: rest) = bkGo (BkSt.trun (c :: run)) rest from by
            simp [bkGo, hterm]]
        exact ih (.trun acc (c :: run))
      · by_cases hws : isWs c
        · rw [show bsGo (.trun acc run) (c :: rest) = acc.reverse :: bsGo .sep rest from by
              simp [bsGo, hterm, hws],
            joinSpace_cons _ _ (bsGo_ne_nil rest .sep), ih .sep,
            show bkGo (BkSt.trun run) (c :: rest) = ' ' :: bkGo BkSt.sep rest from by
              simp [bkGo, hterm, hws]]
          simp
        · rw [show bsGo (.trun acc run) (c :: rest) =
                bsGo (.norm (c :: (run ++ acc))) rest from by simp [bsGo, hterm, hws],
            show bkGo (BkSt.trun run) (c :: rest) =
                run.reverse ++ c :: bkGo BkSt.norm rest from by simp [bkGo, hterm, hws]]
          rw [ih (.norm (c :: (run ++ acc)))]
          simp
    | sep =>
      by_cases hws : isWs c
      · rw [show bsGo BsSt.sep (c :: rest) = bsGo BsSt.sep rest from by
            simp [bsGo, hws],
          show bkGo BkSt.sep (c :: rest) = bkGo BkSt.sep rest from by
            simp [bkGo, hws]]
        exact ih .sep
      · by_cases hterm : isTerm c
        · rw [show bsGo BsSt.sep (c :: rest) = bsGo (.trun [] [c]) rest from by
              simp [bsGo, hws, hterm],
            show bkGo BkSt.sep (c :: rest) = bkGo (BkSt.trun [c]) rest from by
              simp [bkGo, hws, hterm]]
          exact ih (.trun [] [c])
        · rw [show bsGo BsSt.sep (c :: rest) = bsGo (.norm [c]) rest from by
              simp [bsGo, hws, hterm],
            show bkGo BkSt.sep (c :: rest) = c :: bkGo BkSt.norm rest from by
              simp [bkGo, hws, hterm]]
          rw [ih (.norm [c])]
          simp

/-- C5, amended.  The fallback splitter returns no empty sentence, and
joining its sentences with single spaces reproduces the input with each
matched separator (a terminator run followed by whitespace, which
`re.split` discards) replaced by a single space, up to whitespace
normalisation: both sides have the same maximal non-whitespace runs. -/
theorem c5_amended_fallback_split_words (p : List Char) :
    (∀ t ∈ basic_sentence_split p, t ≠ []) ∧
    words (joinSpace (basic_sentence_split p)) = words (blankSeps p) := by
  constructor
  · intro t ht
    have h2 := (List.mem_filter.mp ht).2
    simpa using h2
  · have hpieces : joinSpace (splitPieces p) = blankSeps p := by
      have h2 := joinSpace_bsGo p (.norm [])
      simpa [splitPieces, blankSeps] using h2
    calc words (joinSpace (basic_sentence_split p))
        = (basic_sentence_split p).flatMap words := words_joinSpace _
      _ = (splitPieces p).flatMap words := flatMap_words_clean _
      _ = words (joinSpace (splitPieces p)) := (words_joinSpace _).symm
      _ = words (blankSeps p) := by rw [hpieces]

/-- C5, counterexample.  The fallback splitter discards the matched
terminator runs (`re.split` without a capturing group), so concatenating
its sentences with single spaces does not reproduce the input up to
whitespace normalisation: the first sentence of
`"Hello world. Second sentence."` comes back as `"Hello world"` with the
dot lost. -/
theorem c5_counterexample_terminators_dropped :
    words (joinSpace (basic_sentence_split "Hello world. Second sentence.".toList)) ≠
      words "Hello world. Second sentence.".toList := by
  decide

/-- A whitespace character is unchanged by the case-insensitive
lowercasing (none of them lies in an uppercase range). -/
theorem lowerCI_ws_eq {c : Char} (h : isWs c = true) : lowerCI c = c := by
  have hc : c = ' ' ∨ c = '\t' ∨ c = '\n' ∨ c = '\x0b' ∨ c = '\x0c' ∨ c = '\r' ∨
      c = '\xa0' := by
    simpa [isWs, or_assoc] using h
  rcases hc with rfl | rfl | rfl | rfl | rfl | rfl | rfl <;> rfl

/-- A whitespace character never matches, case-insensitively, a pattern
character whose lowercased form is not whitespace. -/
theorem ciEq_ws_left {c q : Char} (hc : isWs c = true)
    (hq : isWs (lowerCI q) = false) : ciEq c q = false := by
  have hlc : lowerCI c = c := lowerCI_ws_eq hc
  by_contra hne
  have he : lowerCI c = lowerCI q := by
    have := Bool.not_eq_false (ciEq c q) ▸ hne
    simpa [ciEq] using this
  rw [← he, hlc] at hq
  rw [hq] at hc
  exact Bool.false_ne_true hc

/-- A whitespace character is never an ASCII capital. -/
theorem isWs_not_isUpper {c : Char} (h : isWs c = true) : isUpper c = false := by
  have hc : c = ' ' ∨ c = '\t' ∨ c = '\n' ∨ c = '\x0b' ∨ c = '\x0c' ∨ c = '\r' ∨
      c = '\xa0' := by
    simpa [isWs, or_assoc] using h
  rcases hc with rfl | rfl | rfl | rfl | rfl | rfl | rfl <;> rfl

/-- A sentence terminator is never an ASCII capital. -/
theorem isTerm_not_isUpper {c : Char} (h : isTerm c = true) : isUpper c = false := by
  have hc : c = '.' ∨ c = '!' ∨ c = '?' := by
    simpa [isTerm, or_assoc] using h
  rcases hc with rfl | rfl | rfl <;> rfl

/-- An ASCII capital is never a sentence terminator. -/
theorem isUpper_not_isTerm {c : Char} (h : isUpper c = true) : isTerm c = false := by
  cases ht : isTerm c with
  | false => rfl
  | true => rw [isTerm_not_isUpper ht] at h; exact absurd h (by decide)

/-- An ASCII capital is never whitespace. -/
theorem isUpper_not_isWs {c : Char} (h : isUpper c = true) : isWs c = false := by
  cases ht : isWs c with
  | false => rfl
  | true => rw [isWs_not_isUpper ht] at h; exact absurd h (by decide)

/-- A sentence terminator is never whitespace. -/
theorem isTerm_not_isWs {c : Char} (h : isTerm c = true) : isWs c = false := by
  cases ht : isWs c with
  | false => rfl
  | true => rw [isWs_not_isTerm ht] at h; exact absurd h (by decide)

/-- An occurrence in the tail is an occurrence in the whole list. -/
theorem containsCI_cons_of {p : Char} {ps : List Char} (c : Char) {rest : List Char}
    (h : containsCI p ps rest = true) : containsCI p ps (c :: rest) = true := by
  simp [containsCI, h]

/-- An occurrence survives prepending any list. -/
theorem containsCI_append_left_of {p : Char} {ps : List Char} (u : List Char)
    {s : List Char} (h : containsCI p ps s = true) :
    containsCI p ps (u ++ s) = true := by
  induction u with
  | nil => simpa using h
  | cons c u ih => exact containsCI_cons_of c ih

/-- A case-insensitive pattern match at the head survives appending. -/
theorem ciStarts_append_of : ∀ (q s v : List Char), ciStarts q s = true →
    ciStarts q (s ++ v) = true := by
  intro q
  induction q with
  | nil => intro s v _; rfl
  | cons qc qs ih =>
    intro s v h
    cases s with
    | nil => exact absurd h (by simp [ciStarts])
    | cons c cs =>
      simp only [ciStarts, Bool.and_eq_true] at h
      simp only [List.cons_append, ciStarts, Bool.and_eq_true]
      exact ⟨h.1, ih cs v h.2⟩

/-- An occurrence survives appending any list. -/
theorem containsCI_append_right_of {p : Char} {ps : List Char} {s : List Char}
    (v : List Char) (h : containsCI p ps s = true) :
    containsCI p ps (s ++ v) = true := by
  induction s with
  | nil => exact absurd h (by simp [containsCI])
  | cons c cs ih =>
    simp only [containsCI, Bool.or_eq_true] at h
    rcases h with h | h
    · simp only [List.cons_append, containsCI, Bool.or_eq_true]
      exact Or.inl (by simpa using ciStarts_append_of _ _ v h)
    · exact containsCI_cons_of c (ih h)

/-- An occurrence in an infix is an occurrence in the whole list. -/
theorem containsCI_infix_of {p : Char} {ps s : List Char} (u v : List Char)
    (h : containsCI p ps s = true) : containsCI p ps (u ++ s ++ v) = true := by
  rw [List.append_assoc]
  exact containsCI_append_left_of u (containsCI_append_right_of v h)

/-- A nonempty pattern whose first character does not lowercase to
whitespace cannot start matching at a whitespace character. -/
theorem ciStarts_cons_ws {q2 : Char} {qs : List Char} {w : Char} {l : List Char}
    (hw : isWs w = true) (hq : isWs (lowerCI q2) = false) :
    ciStarts (q2 :: qs) (w :: l) = false := by
  simp [ciStarts, ciEq_ws_left hw hq]

/-- The head of a `dropWhile` residue fails the predicate. -/
theorem dropWhile_cons_head_false {p : Char → Bool} :
    ∀ (l : List Char) (d : Char) (r : List Char),
      l.dropWhile p = d :: r → p d = false := by
  intro l
  induction l with
  | nil => intro d r h; exact absurd h (by simp)
  | cons c cs ih =>
    intro d r h
    by_cases hc : p c = true
    · rw [List.dropWhile_cons_of_pos hc] at h
      exact ih d r h
    · rw [List.dropWhile_cons_of_neg hc] at h
      cases h
      exact Bool.not_eq_true _ ▸ hc

/-- `dropWhile` skips a block that satisfies the predicate throughout. -/
theorem dropWhile_all_append {p : Char → Bool} :
    ∀ (w : List Char), (∀ c ∈ w, p c = true) → ∀ (l : List Char),
      (w ++ l).dropWhile p = l.dropWhile p := by
  intro w
  induction w with
  | nil => intro _ l; rfl
  | cons c cs ih =>
    intro hw l
    rw [List.cons_append, List.dropWhile_cons_of_pos (hw c (by simp))]
    exact ih (fun d hd => hw d (by simp [hd])) l

/-- `takeWhile` passes through a block that satisfies the predicate. -/
theorem takeWhile_all_append {p : Char → Bool} :
    ∀ (w : List Char), (∀ c ∈ w, p c = true) → ∀ (l : List Char),
      (w ++ l).takeWhile p = w ++ l.takeWhile p := by
  intro w
  induction w with
  | nil => intro _ l; rfl
  | cons c cs ih =>
    intro hw l
    rw [List.cons_append, List.takeWhile_cons_of_pos (hw c (by simp)),
      ih (fun d hd => hw d (by simp [hd])) l, List.cons_append]

/-- When the first block leaves a `dropWhile` residue, appending does not
change where the residue starts. -/
theorem dropWhile_append_ne {p : Char → Bool} :
    ∀ (l1 : List Char) (d : Char) (r l2 : List Char),
      l1.dropWhile p = d :: r → (l1 ++ l2).dropWhile p = d :: (r ++ l2) := by
  intro l1
  induction l1 with
  | nil => intro d r l2 h; exact absurd h (by simp)
  | cons c cs ih =>
    intro d r l2 h
    by_cases hc : p c = true
    · rw [List.dropWhile_cons_of_pos hc] at h
      rw [List.cons_append, List.dropWhile_cons_of_pos hc]
      exact ih d r l2 h
    · rw [List.dropWhile_cons_of_neg hc] at h
      cases h
      rw [List.cons_append, List.dropWhile_cons_of_neg hc]

/-- When the first block leaves a `dropWhile` residue, appending does not
change the `takeWhile` part. -/
theorem takeWhile_append_ne {p : Char → Bool} :
    ∀ (l1 : List Char) (d : Char) (r l2 : List Char),
      l1.dropWhile p = d :: r → (l1 ++ l2).takeWhile p = l1.takeWhile p := by
  intro l1
  induction l1 with
  | nil => intro d r l2 h; exact absurd h (by simp)
  | cons c cs ih =>
    intro d r l2 h
    by_cases hc : p c = true
    · rw [List.dropWhile_cons_of_pos hc] at h
      rw [List.cons_append, List.takeWhile_cons_of_pos hc,
        List.takeWhile_cons_of_pos hc, ih d r l2 h]
    · rw [List.dropWhile_cons_of_neg hc] at h
      rw [List.cons_append, List.takeWhile_cons_of_neg hc,
        List.takeWhile_cons_of_neg hc]

/-- `dropWhile` is idempotent. -/
theorem dropWhile_dropWhile {p : Char → Bool} :
    ∀ (l : List Char), (l.dropWhile p).dropWhile p = l.dropWhile p := by
  intro l
  induction l with
  | nil => rfl
  | cons c cs ih =>
    by_cases hc : p c = true
    · rw [List.dropWhile_cons_of_pos hc]; exact ih
    · rw [List.dropWhile_cons_of_neg hc, List.dropWhile_cons_of_neg hc]

/-- Collapsing a whitespace-headed list yields a space-headed list. -/
theorem collapseWs_ws_front :
    ∀ (l : List Char) (d : Char), isWs d = true →
      ∃ z, collapseWs (d :: l) = ' ' :: z := by
  intro l
  induction l with
  | nil => intro d hd; exact ⟨[], by simp [collapseWs, hd]⟩
  | cons e l2 ih =>
    intro d hd
    by_cases he : isWs e = true
    · obtain ⟨z, hz⟩ := ih e he
      refine ⟨z, ?_⟩
      rw [show collapseWs (d :: e :: l2) = collapseWs (e :: l2) from by
        simp [collapseWs, hd, he], hz]
    · exact ⟨collapseWs (e :: l2), by
        simp [collapseWs, hd, he]⟩

/-- Collapsing preserves a non-whitespace head. -/
theorem collapseWs_cons_nonws {d : Char} (l : List Char) (h : isWs d = false) :
    collapseWs (d :: l) = d :: collapseWs l := by
  simp [collapseWs, h]

/-- A head match against whitespace-collapsed text is a head match against
the original, for a pattern free of whitespace (after lowercasing). -/
theorem ciStarts_collapseWs :
    ∀ (s q : List Char), (∀ c ∈ q, isWs (lowerCI c) = false) →
      ciStarts q (collapseWs s) = true → ciStarts q s = true := by
  intro s
  induction s with
  | nil => intro q _ h; simpa [collapseWs] using h
  | cons c rest ih =>
    intro q hq h
    cases q with
    | nil => rfl
    | cons qc qs =>
      by_cases hc : isWs c = true
      · obtain ⟨z, hz⟩ := collapseWs_ws_front rest c hc
        rw [hz, ciStarts_cons_ws (by decide) (hq qc (by simp))] at h
        exact absurd h (by decide)
      · rw [collapseWs_cons_nonws rest (Bool.not_eq_true _ ▸ hc)] at h
        simp only [ciStarts, Bool.and_eq_true] at h ⊢
        exact ⟨h.1, ih qs (fun d hd => hq d (by simp [hd])) h.2⟩

/-- An occurrence in whitespace-collapsed text is an occurrence in the
original, for a pattern free of whitespace (after lowercasing). -/
theorem containsCI_collapseWs {p : Char} {ps : List Char}
    (hp : ∀ c ∈ p :: ps, isWs (lowerCI c) = false) :
    ∀ (s : List Char), containsCI p ps (collapseWs s) = true →
      containsCI p ps s = true := by
  intro s
  induction s with
  | nil => intro h; simpa [collapseWs, containsCI] using h
  | cons c rest ih =>
    intro h
    by_cases hc : isWs c = true
    · cases rest with
      | nil =>
        rw [show collapseWs [c] = [' '] from by simp [collapseWs, hc]] at h
        simp [containsCI, ciStarts_cons_ws (show isWs ' ' = true by decide)
          (hp p (by simp))] at h
      | cons d r2 =>
        by_cases hd : isWs d = true
        · rw [show collapseWs (c :: d :: r2) = collapseWs (d :: r2) from by
            simp [collapseWs, hc, hd]] at h
          exact containsCI_cons_of c (ih h)
        · rw [show collapseWs (c :: d :: r2) = ' ' :: collapseWs (d :: r2) from by
            simp [collapseWs, hc, hd]] at h
          simp only [containsCI, Bool.or_eq_true] at h
          rcases h with h | h
          · rw [ciStarts_cons_ws (show isWs ' ' = true by decide)
              (hp p (by simp))] at h
            exact absurd h (by decide)
          · exact containsCI_cons_of c (ih h)
    · rw [collapseWs_cons_nonws rest (Bool.not_eq_true _ ▸ hc)] at h
      simp only [containsCI, Bool.or_eq_true] at h
      rcases h with h | h
      · simp only [ciStarts, Bool.and_eq_true] at h
        have hs : ciStarts ps rest = true :=
          ciStarts_collapseWs rest ps (fun d hd => hp d (by simp [hd])) h.2
        simp only [containsCI, Bool.or_eq_true]
        exact Or.inl (by simp [ciStarts, h.1, hs])
      · exact containsCI_cons_of c (ih h)

/-- The output of the pair-substitution scanner in a pending state starts
with the pending terminator. -/
theorem sppGo_front :
    ∀ (r : List Char) (t : Char) (ws : List Char),
      ∃ z, sppGo (some (t, ws)) r = t :: z := by
  intro r
  induction r with
  | nil => intro t ws; exact ⟨ws.reverse, rfl⟩
  | cons c rest ih =>
    intro t ws
    by_cases hc : isTerm c = true
    · exact ⟨' ' :: c :: sppGo none rest, by simp [sppGo, hc]⟩
    · by_cases hw : isWs c = true
      · obtain ⟨z, hz⟩ := ih t (c :: ws)
        exact ⟨z, by rw [show sppGo (some (t, ws)) (c :: rest)
          = sppGo (some (t, c :: ws)) rest from by simp [sppGo, hc, hw], hz]⟩
      · exact ⟨ws.reverse ++ c :: sppGo none rest, by simp [sppGo, hc, hw]⟩

/-- The pair-substitution scanner preserves the first character. -/
theorem sppGo_none_front (r : List Char) (d : Char) :
    ∃ z, sppGo none (d :: r) = d :: z := by
  by_cases hd : isTerm d = true
  · obtain ⟨z, hz⟩ := sppGo_front r d []
    exact ⟨z, by rw [show sppGo none (d :: r) = sppGo (some (d, [])) r from by
      simp [sppGo, hd], hz]⟩
  · exact ⟨sppGo none r, by simp [sppGo, hd]⟩

/-- A head match against pair-substituted text is a head match against the
original (with the scanner state prepended), for a pattern free of
whitespace after lowercasing. -/
theorem ciStarts_sppGo :
    ∀ (s : List Char) (st : Option (Char × List Char)) (q : List Char),
      (∀ c ∈ q, isWs (lowerCI c) = false) →
      (∀ t ws, st = some (t, ws) → ∀ c ∈ ws, isWs c = true) →
      ciStarts q (sppGo st s) = true →
      ciStarts q ((match st with
        | none => ([] : List Char)
        | some (t, ws) => t :: ws.reverse) ++ s) = true := by
  intro s
  induction s with
  | nil =>
    intro st q hq hst h
    rcases st with _ | ⟨t, ws⟩
    · simpa [sppGo] using h
    · simpa [sppGo] using h
  | cons c rest ih =>
    intro st q hq hst h
    rcases st with _ | ⟨t, ws⟩
    · by_cases hc : isTerm c = true
      · rw [show sppGo none (c :: rest) = sppGo (some (c, [])) rest from by
          simp [sppGo, hc]] at h
        have hr := ih (some (c, [])) q hq
          (by intro t2 ws2 he d hd; cases he; simp at hd) h
        simpa using hr
      · rw [show sppGo none (c :: rest) = c :: sppGo none rest from by
          simp [sppGo, hc]] at h
        cases q with
        | nil => rfl
        | cons qc qs =>
          simp only [ciStarts, Bool.and_eq_true] at h
          have hr := ih none qs (fun d hd => hq d (by simp [hd])) (by simp) h.2
          simp only [List.nil_append] at hr ⊢
          simp [ciStarts, h.1, hr]
    · have hws : ∀ d ∈ ws, isWs d = true := hst t ws rfl
      by_cases hc : isTerm c = true
      · rw [show sppGo (some (t, ws)) (c :: rest) = t :: ' ' :: c :: sppGo none rest
          from by simp [sppGo, hc]] at h
        cases q with
        | nil => rfl
        | cons qc qs =>
          simp only [ciStarts, Bool.and_eq_true] at h
          cases qs with
          | nil =>
            simp only [List.cons_append, ciStarts, Bool.and_eq_true]
            exact ⟨h.1, trivial⟩
          | cons q2 qs2 =>
            rw [ciStarts_cons_ws (show isWs ' ' = true by decide)
              (hq q2 (by simp))] at h
            exact absurd h.2 (by decide)
      · by_cases hw : isWs c = true
        · rw [show sppGo (some (t, ws)) (c :: rest) = sppGo (some (t, c :: ws)) rest
            from by simp [sppGo, hc, hw]] at h
          have hr := ih (some (t, c :: ws)) q hq
            (by intro t2 ws2 he d hd
                cases he
                rcases List.mem_cons.mp hd with rfl | hd2
                · exact hw
                · exact hws d hd2) h
          simp only [List.reverse_cons, List.cons_append, List.append_assoc,
            List.singleton_append] at hr ⊢
          exact hr
        · rw [show sppGo (some (t, ws)) (c :: rest)
              = t :: (ws.reverse ++ c :: sppGo none rest) from by
            simp [sppGo, hc, hw]] at h
          cases q with
          | nil => rfl
          | cons qc qs =>
            simp only [ciStarts, Bool.and_eq_true] at h
            rcases hwr : ws.reverse with _ | ⟨e, tl⟩
            · rw [hwr, List.nil_append] at h
              cases qs with
              | nil =>
                simp only [hwr, List.cons_append, List.nil_append, ciStarts,
                  Bool.and_eq_true]
                exact ⟨h.1, trivial⟩
              | cons q2 qs2 =>
                obtain ⟨h1, h2⟩ := h
                simp only [ciStarts, Bool.and_eq_true] at h2
                have hr := ih none qs2 (fun d hd => hq d (by simp [hd]))
                  (by simp) h2.2
                simp only [List.nil_append] at hr
                simp only [hwr, List.cons_append, List.nil_append, ciStarts,
                  Bool.and_eq_true]
                exact ⟨h1, h2.1, hr⟩
            · cases qs with
              | nil =>
                simp only [List.cons_append, ciStarts, Bool.and_eq_true]
                exact ⟨h.1, trivial⟩
              | cons q2 qs2 =>
                have he : isWs e = true := by
                  have : e ∈ ws.reverse := by rw [hwr]; simp
                  exact hws e (List.mem_reverse.mp this)
                rw [hwr, List.cons_append,
                  ciStarts_cons_ws he (hq q2 (by simp))] at h
                exact absurd h.2 (by decide)

/-- An occurrence in text after an all-whitespace block lies past the
block, for a pattern whose head does not lowercase to whitespace. -/
theorem containsCI_ws_front {p : Char} {ps : List Char}
    (hp : isWs (lowerCI p) = false) :
    ∀ (W : List Char), (∀ c ∈ W, isWs c = true) → ∀ (Y : List Char),
      containsCI p ps (W ++ Y) = true → containsCI p ps Y = true := by
  intro W
  induction W with
  | nil => intro _ Y h; simpa using h
  | cons w W2 ih =>
    intro hW Y h
    simp only [List.cons_append, containsCI, Bool.or_eq_true] at h
    rcases h with h | h
    · rw [ciStarts_cons_ws (hW w (by simp)) hp] at h
      exact absurd h (by decide)
    · exact ih (fun d hd => hW d (by simp [hd])) Y h

/-- An occurrence in pair-substituted text is an occurrence in the
original (with the scanner state prepended), for a pattern free of
whitespace after lowercasing. -/
theorem containsCI_sppGo {p : Char} {ps : List Char}
    (hp : ∀ c ∈ p :: ps, isWs (lowerCI c) = false) :
    ∀ (s : List Char) (st : Option (Char × List Char)),
      (∀ t ws, st = some (t, ws) → ∀ c ∈ ws, isWs c = true) →
      containsCI p ps (sppGo st s) = true →
      containsCI p ps ((match st with
        | none => ([] : List Char)
        | some (t, ws) => t :: ws.reverse) ++ s) = true := by
  intro s
  induction s with
  | nil =>
    intro st hst h
    rcases st with _ | ⟨t, ws⟩
    · simpa [sppGo, containsCI] using h
    · simpa [sppGo] using h
  | cons c rest ih =>
    intro st hst h
    rcases st with _ | ⟨t, ws⟩
    · by_cases hc : isTerm c = true
      · rw [show sppGo none (c :: rest) = sppGo (some (c, [])) rest from by
          simp [sppGo, hc]] at h
        have hr := ih (some (c, []))
          (by intro t2 ws2 he d hd; cases he; simp at hd) h
        simpa using hr
      · rw [show sppGo none (c :: rest) = c :: sppGo none rest from by
          simp [sppGo, hc]] at h
        simp only [containsCI, Bool.or_eq_true] at h
        simp only [List.nil_append]
        rcases h with h | h
        · simp only [ciStarts, Bool.and_eq_true] at h
          have hs := ciStarts_sppGo rest none ps
            (fun d hd => hp d (by simp [hd])) (by simp) h.2
          simp only [List.nil_append] at hs
          simp only [containsCI, Bool.or_eq_true]
          exact Or.inl (by simp [ciStarts, h.1, hs])
        · have hr := ih none (by simp) h
          simp only [List.nil_append] at hr
          exact containsCI_cons_of c hr
    · have hws : ∀ d ∈ ws, isWs d = true := hst t ws rfl
      by_cases hc : isTerm c = true
      · rw [show sppGo (some (t, ws)) (c :: rest) = t :: ' ' :: c :: sppGo none rest
          from by simp [sppGo, hc]] at h
        simp only [containsCI, Bool.or_eq_true] at h
        rcases h with h | h | h | h
        · cases ps with
          | nil =>
            simp only [ciStarts, Bool.and_eq_true] at h
            simp only [List.cons_append, containsCI, Bool.or_eq_true]
            exact Or.inl (by simp [ciStarts, h.1])
          | cons p2 ps2 =>
            simp only [ciStarts, Bool.and_eq_true] at h
            have hfalse : ciEq ' ' p2 = false :=
              ciEq_ws_left (by decide) (hp p2 (by simp))
            exact absurd h.2.1 (by simp [hfalse])
        · rw [ciStarts_cons_ws (show isWs ' ' = true by decide)
            (hp p (by simp))] at h
          exact absurd h (by decide)
        · simp only [ciStarts, Bool.and_eq_true] at h
          have hs := ciStarts_sppGo rest none ps
            (fun d hd => hp d (by simp [hd])) (by simp) h.2
          simp only [List.nil_append] at hs
          refine containsCI_append_left_of (t :: ws.reverse) ?_
          simp only [containsCI, Bool.or_eq_true]
          exact Or.inl (by simp [ciStarts, h.1, hs])
        · have hr := ih none (by simp) h
          simp only [List.nil_append] at hr
          exact containsCI_append_left_of (t :: ws.reverse)
            (containsCI_cons_of c hr)
      · by_cases hw : isWs c = true
        · rw [show sppGo (some (t, ws)) (c :: rest) = sppGo (some (t, c :: ws)) rest
            from by simp [sppGo, hc, hw]] at h
          have hr := ih (some (t, c :: ws))
            (by intro t2 ws2 he d hd
                cases he
                rcases List.mem_cons.mp hd with rfl | hd2
                · exact hw
                · exact hws d hd2) h
          simp only [List.reverse_cons, List.cons_append, List.append_assoc,
            List.singleton_append] at hr ⊢
          exact hr
        · rw [show sppGo (some (t, ws)) (c :: rest)
              = t :: (ws.reverse ++ c :: sppGo none rest) from by
            simp [sppGo, hc, hw]] at h
          simp only [containsCI, Bool.or_eq_true] at h
          rcases h with h | h
          · cases ps with
            | nil =>
              simp only [ciStarts, Bool.and_eq_true] at h
              simp only [List.cons_append, containsCI, Bool.or_eq_true]
              exact Or.inl (by simp [ciStarts, h.1])
            | cons p2 ps2 =>
              simp only [ciStarts, Bool.and_eq_true] at h
              rcases hwr : ws.reverse with _ | ⟨e, tl⟩
              · rw [hwr, List.nil_append] at h
                obtain ⟨h1, h2⟩ := h
                simp only [ciStarts, Bool.and_eq_true] at h2
                have hs := ciStarts_sppGo rest none ps2
                  (fun d hd => hp d (by simp [hd])) (by simp) h2.2
                simp only [List.nil_append] at hs
                simp only [hwr, List.cons_append, List.nil_append, containsCI,
                  Bool.or_eq_true]
                exact Or.inl (by simp [ciStarts, h1, h2.1, hs])
              · have he : isWs e = true := by
                  have : e ∈ ws.reverse := by rw [hwr]; simp
                  exact hws e (List.mem_reverse.mp this)
                rw [hwr, List.cons_append,
                  ciStarts_cons_ws he (hp p2 (by simp))] at h
                exact absurd h.2 (by decide)
          · have hmid := containsCI_ws_front (hp p (by simp)) ws.reverse
              (fun d hd => hws d (List.mem_reverse.mp hd)) _ h
            simp only [containsCI, Bool.or_eq_true] at hmid
            rcases hmid with hmid | hmid
            · simp only [ciStarts, Bool.and_eq_true] at hmid
              have hs := ciStarts_sppGo rest none ps
                (fun d hd => hp d (by simp [hd])) (by simp) hmid.2
              simp only [List.nil_append] at hs
              refine containsCI_append_left_of (t :: ws.reverse) ?_
              simp only [containsCI, Bool.or_eq_true]
              exact Or.inl (by simp [ciStarts, hmid.1, hs])
            · have hr := ih none (by simp) hmid
              simp only [List.nil_append] at hr
              exact containsCI_append_left_of (t :: ws.reverse)
                (containsCI_cons_of c hr)

/-- The terminator-capital substitution preserves the first character. -/
theorem subPunctUpper_cons_front (l : List Char) (c : Char) :
    ∃ z, subPunctUpper (c :: l) = c :: z := by
  cases l with
  | nil => exact ⟨[], rfl⟩
  | cons d r =>
    by_cases hm : (isTerm c && isUpper d) = true
    · exact ⟨' ' :: d :: subPunctUpper r, by simp [subPunctUpper, hm]⟩
    · exact ⟨subPunctUpper (d :: r), by simp [subPunctUpper,
        Bool.not_eq_true _ ▸ hm]⟩

/-- The terminator-capital substitution walks past a non-terminator. -/
theorem subPunctUpper_cons_nonterm {c : Char} (l : List Char)
    (h : isTerm c = false) : subPunctUpper (c :: l) = c :: subPunctUpper l := by
  cases l with
  | nil => rfl
  | cons d r => simp [subPunctUpper, h]

/-- The terminator-capital substitution passes through a terminator-free
block unchanged. -/
theorem subPunctUpper_nonterm_append :
    ∀ (w : List Char), (∀ c ∈ w, isTerm c = false) → ∀ (l : List Char),
      subPunctUpper (w ++ l) = w ++ subPunctUpper l := by
  intro w
  induction w with
  | nil => intro _ l; rfl
  | cons a w2 ih =>
    intro hw l
    rw [List.cons_append, subPunctUpper_cons_nonterm _ (hw a (by simp)),
      ih (fun d hd => hw d (by simp [hd])) l, List.cons_append]

/-- A head match against terminator-capital-substituted text is a head
match against the original, for a pattern free of whitespace after
lowercasing. -/
theorem ciStarts_subPunctUpper :
    ∀ (s q : List Char), (∀ c ∈ q, isWs (lowerCI c) = false) →
      ciStarts q (subPunctUpper s) = true → ciStarts q s = true := by
  intro s
  induction s with
  | nil => intro q _ h; simpa [subPunctUpper] using h
  | cons c rest ih =>
    intro q hq h
    cases rest with
    | nil => simpa [subPunctUpper] using h
    | cons d rest2 =>
      cases q with
      | nil => rfl
      | cons qc qs =>
        by_cases hm : (isTerm c && isUpper d) = true
        · rw [show subPunctUpper (c :: d :: rest2) = c :: ' ' :: d :: subPunctUpper rest2
            from by simp [subPunctUpper, hm]] at h
          simp only [ciStarts, Bool.and_eq_true] at h
          obtain ⟨h1, h2⟩ := h
          cases qs with
          | nil => simp [ciStarts, h1]
          | cons q2 qs2 =>
            rw [ciStarts_cons_ws (show isWs ' ' = true by decide)
              (hq q2 (by simp))] at h2
            exact absurd h2 (by decide)
        · rw [show subPunctUpper (c :: d :: rest2) = c :: subPunctUpper (d :: rest2)
            from by simp [subPunctUpper, Bool.not_eq_true _ ▸ hm]] at h
          simp only [ciStarts, Bool.and_eq_true] at h
          have hr := ih qs (fun e he => hq e (by simp [he])) h.2
          simp [ciStarts, h.1, hr]

/-- An occurrence in terminator-capital-substituted text is an occurrence
in the original, for a pattern free of whitespace after lowercasing. -/
theorem containsCI_subPunctUpper {p : Char} {ps : List Char}
    (hp : ∀ c ∈ p :: ps, isWs (lowerCI c) = false) :
    ∀ (n : Nat) (s : List Char), s.length ≤ n →
      containsCI p ps (subPunctUpper s) = true → containsCI p ps s = true := by
  intro n
  induction n with
  | zero =>
    intro s hlen h
    rw [List.length_eq_zero.mp (Nat.le_zero.mp hlen)] at h ⊢
    simpa [subPunctUpper, containsCI] using h
  | succ n ih =>
    intro s hlen h
    cases s with
    | nil => simpa [subPunctUpper, containsCI] using h
    | cons c rest =>
      cases rest with
      | nil => simpa [subPunctUpper] using h
      | cons d rest2 =>
        simp only [List.length_cons] at hlen
        by_cases hm : (isTerm c && isUpper d) = true
        · rw [show subPunctUpper (c :: d :: rest2) = c :: ' ' :: d :: subPunctUpper rest2
            from by simp [subPunctUpper, hm]] at h
          simp only [containsCI, Bool.or_eq_true] at h
          rcases h with h | h | h | h
          · cases ps with
            | nil =>
              simp only [ciStarts, Bool.and_eq_true] at h
              simp [containsCI, ciStarts, h.1]
            | cons p2 ps2 =>
              simp only [ciStarts, Bool.and_eq_true] at h
              have hfalse : ciEq ' ' p2 = false :=
                ciEq_ws_left (by decide) (hp p2 (by simp))
              exact absurd h.2.1 (by simp [hfalse])
          · rw [ciStarts_cons_ws (show isWs ' ' = true by decide)
              (hp p (by simp))] at h
            exact absurd h (by decide)
          · simp only [ciStarts, Bool.and_eq_true] at h
            have hs := ciStarts_subPunctUpper rest2 ps
              (fun e he => hp e (by simp [he])) h.2
            refine containsCI_cons_of c ?_
            simp [containsCI, ciStarts, h.1, hs]
          · have hr := ih rest2 (by omega) h
            exact containsCI_cons_of c (containsCI_cons_of d hr)
        · rw [show subPunctUpper (c :: d :: rest2) = c :: subPunctUpper (d :: rest2)
            from by simp [subPunctUpper, Bool.not_eq_true _ ▸ hm]] at h
          simp only [containsCI, Bool.or_eq_true] at h
          rcases h with h | h
          · simp only [ciStarts, Bool.and_eq_true] at h
            have hs := ciStarts_subPunctUpper (d :: rest2) ps
              (fun e he => hp e (by simp [he])) h.2
            simp only [containsCI, Bool.or_eq_true]
            exact Or.inl (by simp [ciStarts, h.1, hs])
          · exact containsCI_cons_of c (ih (d :: rest2) (by simp; omega) h)

/-- Whitespace collapsing introduces no character beyond spaces. -/
theorem mem_collapseWs_or :
    ∀ (s : List Char) (c : Char), c ∈ collapseWs s → c ∈ s ∨ c = ' ' := by
  intro s
  induction s with
  | nil => intro c h; simp [collapseWs] at h
  | cons a rest ih =>
    intro c h
    by_cases ha : isWs a = true
    · cases rest with
      | nil =>
        rw [show collapseWs [a] = [' '] from by simp [collapseWs, ha]] at h
        simp at h
        exact Or.inr h
      | cons d r2 =>
        by_cases hd : isWs d = true
        · rw [show collapseWs (a :: d :: r2) = collapseWs (d :: r2) from by
            simp [collapseWs, ha, hd]] at h
          rcases ih c h with h2 | h2
          · exact Or.inl (by simp [h2])
          · exact Or.inr h2
        · rw [show collapseWs (a :: d :: r2) = ' ' :: collapseWs (d :: r2) from by
            simp [collapseWs, ha, hd]] at h
          rcases List.mem_cons.mp h with rfl | h2
          · exact Or.inr rfl
          · rcases ih c h2 with h3 | h3
            · exact Or.inl (by simp [h3])
            · exact Or.inr h3
    · rw [collapseWs_cons_nonws rest (Bool.not_eq_true _ ▸ ha)] at h
      rcases List.mem_cons.mp h with rfl | h2
      · exact Or.inl (by simp)
      · rcases ih c h2 with h3 | h3
        · exact Or.inl (by simp [h3])
        · exact Or.inr h3

/-- The pair substitution introduces no character beyond spaces. -/
theorem mem_sppGo_or :
    ∀ (s : List Char) (st : Option (Char × List Char)) (c : Char),
      c ∈ sppGo st s →
      c ∈ ((match st with
        | none => ([] : List Char)
        | some (t, ws) => t :: ws.reverse) ++ s) ∨ c = ' ' := by
  intro s
  induction s with
  | nil =>
    intro st c h
    rcases st with _ | ⟨t, ws⟩
    · simp [sppGo] at h
    · simp only [sppGo] at h
      exact Or.inl (by simpa using h)
  | cons a rest ih =>
    intro st c h
    rcases st with _ | ⟨t, ws⟩
    · by_cases ha : isTerm a = true
      · rw [show sppGo none (a :: rest) = sppGo (some (a, [])) rest from by
          simp [sppGo, ha]] at h
        rcases ih (some (a, [])) c h with h2 | h2
        · exact Or.inl (by simpa using h2)
        · exact Or.inr h2
      · rw [show sppGo none (a :: rest) = a :: sppGo none rest from by
          simp [sppGo, ha]] at h
        rcases List.mem_cons.mp h with rfl | h2
        · exact Or.inl (by simp)
        · rcases ih none c h2 with h3 | h3
          · simp only [List.nil_append] at h3
            exact Or.inl (by simp [h3])
          · exact Or.inr h3
    · by_cases ha : isTerm a = true
      · rw [show sppGo (some (t, ws)) (a :: rest) = t :: ' ' :: a :: sppGo none rest
          from by simp [sppGo, ha]] at h
        rcases List.mem_cons.mp h with rfl | h
        · exact Or.inl (by simp)
        rcases List.mem_cons.mp h with rfl | h
        · exact Or.inr rfl
        rcases List.mem_cons.mp h with rfl | h
        · exact Or.inl (by simp)
        rcases ih none c h with h3 | h3
        · simp only [List.nil_append] at h3
          exact Or.inl (by simp [h3])
        · exact Or.inr h3
      · by_cases hw : isWs a = true
        · rw [show sppGo (some (t, ws)) (a :: rest) = sppGo (some (t, a :: ws)) rest
            from by simp [sppGo, ha, hw]] at h
          rcases ih (some (t, a :: ws)) c h with h3 | h3
          · simp only [List.reverse_cons, List.cons_append, List.append_assoc,
              List.singleton_append] at h3
            exact Or.inl h3
          · exact Or.inr h3
        · rw [show sppGo (some (t, ws)) (a :: rest)
              = t :: (ws.reverse ++ a :: sppGo none rest) from by
            simp [sppGo, ha, hw]] at h
          rcases List.mem_cons.mp h with rfl | h
          · exact Or.inl (by simp)
          rcases List.mem_append.mp h with h2 | h2
          · exact Or.inl (by simp [h2])
          rcases List.mem_cons.mp h2 with rfl | h2
          · exact Or.inl (by simp)
          rcases ih none c h2 with h3 | h3
          · simp only [List.nil_append] at h3
            exact Or.inl (by simp [h3])
          · exact Or.inr h3

/-- The terminator-capital substitution introduces no character beyond
spaces. -/
theorem mem_subPunctUpper_or :
    ∀ (n : Nat) (s : List Char), s.length ≤ n →
      ∀ c ∈ subPunctUpper s, c ∈ s ∨ c = ' ' := by
  intro n
  induction n with
  | zero =>
    intro s hlen c h
    rw [List.length_eq_zero.mp (Nat.le_zero.mp hlen)] at h
    simp [subPunctUpper] at h
  | succ n ih =>
    intro s hlen c h
    cases s with
    | nil => simp [subPunctUpper] at h
    | cons a rest =>
      cases rest with
      | nil =>
        rw [show subPunctUpper [a] = [a] from rfl] at h
        exact Or.inl h
      | cons d rest2 =>
        simp only [List.length_cons] at hlen
        by_cases hm : (isTerm a && isUpper d) = true
        · rw [show subPunctUpper (a :: d :: rest2) = a :: ' ' :: d :: subPunctUpper rest2
            from by simp [subPunctUpper, hm]] at h
          rcases List.mem_cons.mp h with rfl | h
          · exact Or.inl (by simp)
          rcases List.mem_cons.mp h with rfl | h
          · exact Or.inr rfl
          rcases List.mem_cons.mp h with rfl | h
          · exact Or.inl (by simp)
          rcases ih rest2 (by omega) c h with h3 | h3
          · exact Or.inl (by simp [h3])
          · exact Or.inr h3
        · rw [show subPunctUpper (a :: d :: rest2) = a :: subPunctUpper (d :: rest2)
            from by simp [subPunctUpper, Bool.not_eq_true _ ▸ hm]] at h
          rcases List.mem_cons.mp h with rfl | h
          · exact Or.inl (by simp)
          rcases ih (d :: rest2) (by simp; omega) c h with h3 | h3
          · exact Or.inl (by simp [h3])
          · exact Or.inr h3

/-- `dropWhile` never lengthens a list. -/
theorem dropWhile_length_le (p : Char → Bool) (l : List Char) :
    (l.dropWhile p).length ≤ l.length :=
  (List.dropWhile_suffix p).sublist.length_le

/-- Python strip splits the input into leading whitespace, the stripped
core, and trailing whitespace. -/
theorem pyStrip_split (s : List Char) :
    ∃ u v, s = u ++ pyStrip s ++ v ∧ (∀ c ∈ u, isWs c = true) ∧
      (∀ c ∈ v, isWs c = true) := by
  have hA : List.takeWhile isWs s ++ List.dropWhile isWs s = s :=
    List.takeWhile_append_dropWhile isWs s
  have hB : List.takeWhile isWs (s.dropWhile isWs).reverse ++
      List.dropWhile isWs (s.dropWhile isWs).reverse = (s.dropWhile isWs).reverse :=
    List.takeWhile_append_dropWhile isWs (s.dropWhile isWs).reverse
  have hsplit : pyStrip s ++ ((s.dropWhile isWs).reverse.takeWhile isWs).reverse
      = s.dropWhile isWs := by
    show ((s.dropWhile isWs).reverse.dropWhile isWs).reverse ++ _ = _
    rw [← List.reverse_append, hB, List.reverse_reverse]
  refine ⟨s.takeWhile isWs, ((s.dropWhile isWs).reverse.takeWhile isWs).reverse,
    ?_, ?_, ?_⟩
  · rw [List.append_assoc, hsplit, hA]
  · intro c hc; exact List.mem_takeWhile_imp hc
  · intro c hc; exact List.mem_takeWhile_imp (List.mem_reverse.mp hc)

/-- An occurrence in the stripped core is an occurrence in the input. -/
theorem containsCI_pyStrip {p : Char} {ps : List Char} (s : List Char)
    (h : containsCI p ps (pyStrip s) = true) : containsCI p ps s = true := by
  obtain ⟨u, v, he, _, _⟩ := pyStrip_split s
  rw [he]
  exact containsCI_infix_of u v h

/-- Python strip is idempotent. -/
theorem pyStrip_idem (s : List Char) : pyStrip (pyStrip s) = pyStrip s := by
  have hrev : (pyStrip s).reverse = (s.dropWhile isWs).reverse.dropWhile isWs := by
    show ((s.dropWhile isWs).reverse.dropWhile isWs).reverse.reverse = _
    rw [List.reverse_reverse]
  have h2 : (pyStrip s).reverse.dropWhile isWs = (pyStrip s).reverse := by
    rw [hrev]; exact dropWhile_dropWhile _
  have h1 : (pyStrip s).dropWhile isWs = pyStrip s := by
    cases ht : pyStrip s with
    | nil => rfl
    | cons d r =>
      have hsuf : (pyStrip s).reverse <:+ (s.dropWhile isWs).reverse := by
        rw [hrev]; exact List.dropWhile_suffix isWs
      have hpre : pyStrip s <+: s.dropWhile isWs := by
        have := List.reverse_prefix.mpr hsuf
        rwa [List.reverse_reverse, List.reverse_reverse] at this
      obtain ⟨tail, htail⟩ := hpre
      rw [ht, List.cons_append] at htail
      have hd : isWs d = false :=
        dropWhile_cons_head_false s d (r ++ tail) htail.symm
      rw [List.dropWhile_cons_of_neg (by simp [hd])]
  show (((pyStrip s).dropWhile isWs).reverse.dropWhile isWs).reverse = pyStrip s
  rw [h1, h2, List.reverse_reverse]

/-- A chain restricted to the right part of an append. -/
theorem chain_of_append_left {R : Char → Char → Prop} {u l : List Char}
    (h : List.Chain' R (u ++ l)) : List.Chain' R l :=
  (List.chain'_append.mp h).2.1

/-- A chain restricted to the left part of an append. -/
theorem chain_of_append_right {R : Char → Char → Prop} {l v : List Char}
    (h : List.Chain' R (l ++ v)) : List.Chain' R l :=
  (List.chain'_append.mp h).1

/-- After whitespace collapsing, every whitespace character is a plain
space and no two whitespace characters are adjacent. -/
theorem collapseWs_wsn : ∀ (s : List Char),
    (∀ c ∈ collapseWs s, isWs c = true → c = ' ') ∧
    List.Chain' (fun a b => ¬(isWs a = true ∧ isWs b = true)) (collapseWs s) := by
  intro s
  induction s with
  | nil => exact ⟨by simp [collapseWs], by simp [collapseWs]⟩
  | cons c rest ih =>
    by_cases hc : isWs c = true
    · cases rest with
      | nil =>
        rw [show collapseWs [c] = [' '] from by simp [collapseWs, hc]]
        refine ⟨?_, List.chain'_singleton _⟩
        intro d hd
        simp at hd
        simp [hd]
      | cons d r2 =>
        by_cases hd : isWs d = true
        · rw [show collapseWs (c :: d :: r2) = collapseWs (d :: r2) from by
            simp [collapseWs, hc, hd]]
          exact ih
        · rw [show collapseWs (c :: d :: r2) = ' ' :: collapseWs (d :: r2) from by
            simp [collapseWs, hc, hd]]
          constructor
          · intro e he
            rcases List.mem_cons.mp he with rfl | he2
            · intro _; rfl
            · exact ih.1 e he2
          · rw [List.chain'_cons']
            refine ⟨?_, ih.2⟩
            intro y hy
            rw [collapseWs_cons_nonws r2 (Bool.not_eq_true _ ▸ hd)] at hy
            simp at hy
            subst hy
            intro hcon
            exact absurd hcon.2 (by simp [hd])
    · rw [collapseWs_cons_nonws rest (Bool.not_eq_true _ ▸ hc)]
      constructor
      · intro e he
        rcases List.mem_cons.mp he with rfl | he2
        · intro hws; exact absurd hws hc
        · exact ih.1 e he2
      · rw [List.chain'_cons']
        refine ⟨?_, ih.2⟩
        intro y _ hcon
        exact hc hcon.1

/-- Whitespace collapsing fixes a list already in whitespace normal
form. -/
theorem collapseWs_eq_self : ∀ (s : List Char),
    (∀ c ∈ s, isWs c = true → c = ' ') →
    List.Chain' (fun a b => ¬(isWs a = true ∧ isWs b = true)) s →
    collapseWs s = s := by
  intro s
  induction s with
  | nil => intro _ _; rfl
  | cons c rest ih =>
    intro h1 h2
    by_cases hc : isWs c = true
    · have hcsp : c = ' ' := h1 c (by simp) hc
      subst hcsp
      cases rest with
      | nil => simp [collapseWs]
      | cons d r2 =>
        have hd : isWs d = false := by
          cases hdok : isWs d with
          | false => rfl
          | true =>
            rcases List.chain'_cons'.mp h2 with ⟨hpair, _⟩
            exact absurd ⟨hc, hdok⟩ (hpair d (by simp))
        rw [show collapseWs (' ' :: d :: r2) = ' ' :: collapseWs (d :: r2) from by
          simp [collapseWs, hd], ih (fun e he => h1 e (by simp [he])) h2.tail]
    · rw [collapseWs_cons_nonws rest (Bool.not_eq_true _ ▸ hc),
        ih (fun e he => h1 e (by simp [he])) h2.tail]

/-- The pair substitution preserves whitespace normal form. -/
theorem sppGo_none_wsn :
    ∀ (n : Nat) (s : List Char), s.length ≤ n →
      (∀ c ∈ s, isWs c = true → c = ' ') →
      List.Chain' (fun a b => ¬(isWs a = true ∧ isWs b = true)) s →
      (∀ c ∈ sppGo none s, isWs c = true → c = ' ') ∧
      List.Chain' (fun a b => ¬(isWs a = true ∧ isWs b = true)) (sppGo none s) := by
  intro n
  induction n with
  | zero =>
    intro s hlen _ _
    rw [List.length_eq_zero.mp (Nat.le_zero.mp hlen)]
    exact ⟨by simp [sppGo], by simp [sppGo]⟩
  | succ n ih =>
    intro s hlen h1 h2
    cases s with
    | nil => exact ⟨by simp [sppGo], by simp [sppGo]⟩
    | cons c rest =>
      simp only [List.length_cons] at hlen
      by_cases hc : isTerm c = true
      · have hcw : isWs c = false := isTerm_not_isWs hc
        cases rest with
        | nil =>
          rw [show sppGo none [c] = [c] from by simp [sppGo, hc]]
          refine ⟨?_, List.chain'_singleton _⟩
          intro d hd
          simp at hd
          subst hd
          intro hws
          rw [hws] at hcw
          exact absurd hcw (by decide)
        | cons e r3 =>
          simp only [List.length_cons] at hlen
          by_cases he : isTerm e = true
          · rw [show sppGo none (c :: e :: r3) = c :: ' ' :: e :: sppGo none r3
              from by simp [sppGo, hc, he]]
            have ih3 := ih r3 (by omega)
              (fun d hd => h1 d (by simp [hd])) h2.tail.tail
            refine ⟨?_, ?_⟩
            · intro d hd
              rcases List.mem_cons.mp hd with rfl | hd
              · intro hws; rw [hws] at hcw; exact absurd hcw (by decide)
              rcases List.mem_cons.mp hd with rfl | hd
              · intro _; rfl
              rcases List.mem_cons.mp hd with rfl | hd
              · intro hws; rw [isTerm_not_isWs he] at hws
                exact absurd hws (by decide)
              · exact ih3.1 d hd
            · rw [List.chain'_cons']
              refine ⟨fun y _ hcon => absurd hcon.1 (by simp [hcw]), ?_⟩
              rw [List.chain'_cons']
              refine ⟨?_, ?_⟩
              · intro y hy
                simp at hy
                subst hy
                intro hcon
                exact absurd hcon.2 (by simp [isTerm_not_isWs he])
              · rw [List.chain'_cons']
                exact ⟨fun y _ hcon =>
                  absurd hcon.1 (by simp [isTerm_not_isWs he]), ih3.2⟩
          · by_cases hwe : isWs e = true
            · have hesp : e = ' ' := h1 e (by simp) hwe
              cases r3 with
              | nil =>
                rw [show sppGo none [c, e] = [c, e] from by
                  simp [sppGo, hc, he, hwe]]
                refine ⟨?_, ?_⟩
                · intro d hd
                  rcases List.mem_cons.mp hd with rfl | hd
                  · intro hws; rw [hws] at hcw; exact absurd hcw (by decide)
                  · simp at hd
                    subst hd
                    intro _; exact hesp
                · rw [List.chain'_cons']
                  exact ⟨fun y _ hcon => absurd hcon.1 (by simp [hcw]),
                    List.chain'_singleton _⟩
              | cons f r4 =>
                simp only [List.length_cons] at hlen
                have hf : isWs f = false := by
                  cases hfok : isWs f with
                  | false => rfl
                  | true =>
                    rcases List.chain'_cons'.mp h2.tail with ⟨hpair, _⟩
                    exact absurd ⟨hwe, hfok⟩ (hpair f (by simp))
                have ih4 := ih r4 (by omega)
                  (fun d hd => h1 d (by simp [hd])) h2.tail.tail.tail
                by_cases hft : isTerm f = true
                · rw [show sppGo none (c :: e :: f :: r4)
                      = c :: ' ' :: f :: sppGo none r4 from by
                    simp [sppGo, hc, he, hwe, hft]]
                  refine ⟨?_, ?_⟩
                  · intro d hd
                    rcases List.mem_cons.mp hd with rfl | hd
                    · intro hws; rw [hws] at hcw; exact absurd hcw (by decide)
                    rcases List.mem_cons.mp hd with rfl | hd
                    · intro _; rfl
                    rcases List.mem_cons.mp hd with rfl | hd
                    · intro hws; rw [hws] at hf; exact absurd hf (by decide)
                    · exact ih4.1 d hd
                  · rw [List.chain'_cons']
                    refine ⟨fun y _ hcon => absurd hcon.1 (by simp [hcw]), ?_⟩
                    rw [List.chain'_cons']
                    refine ⟨?_, ?_⟩
                    · intro y hy
                      simp at hy
                      subst hy
                      intro hcon
                      exact absurd hcon.2 (by simp [hf])
                    · rw [List.chain'_cons']
                      exact ⟨fun y _ hcon => absurd hcon.1 (by simp [hf]),
                        ih4.2⟩
                · rw [show sppGo none (c :: e :: f :: r4)
                      = c :: e :: f :: sppGo none r4 from by
                    simp [sppGo, hc, he, hwe, hft, hf]]
                  refine ⟨?_, ?_⟩
                  · intro d hd
                    rcases List.mem_cons.mp hd with rfl | hd
                    · intro hws; rw [hws] at hcw; exact absurd hcw (by decide)
                    rcases List.mem_cons.mp hd with rfl | hd
                    · intro _; exact hesp
                    rcases List.mem_cons.mp hd with rfl | hd
                    · intro hws; rw [hws] at hf; exact absurd hf (by decide)
                    · exact ih4.1 d hd
                  · rw [List.chain'_cons']
                    refine ⟨fun y _ hcon => absurd hcon.1 (by simp [hcw]), ?_⟩
                    rw [List.chain'_cons']
                    refine ⟨?_, ?_⟩
                    · intro y hy
                      simp at hy
                      subst hy
                      intro hcon
                      exact absurd hcon.2 (by simp [hf])
                    · rw [List.chain'_cons']
                      exact ⟨fun y _ hcon => absurd hcon.1 (by simp [hf]),
                        ih4.2⟩
            · rw [show sppGo none (c :: e :: r3) = c :: e :: sppGo none r3
                from by simp [sppGo, hc, he, hwe]]
              have ih3 := ih r3 (by omega)
                (fun d hd => h1 d (by simp [hd])) h2.tail.tail
              refine ⟨?_, ?_⟩
              · intro d hd
                rcases List.mem_cons.mp hd with rfl | hd
                · intro hws; rw [hws] at hcw; exact absurd hcw (by decide)
                rcases List.mem_cons.mp hd with rfl | hd
                · intro hws; exact absurd hws (by simp [hwe])
                · exact ih3.1 d hd
              · rw [List.chain'_cons']
                refine ⟨fun y _ hcon => absurd hcon.1 (by simp [hcw]), ?_⟩
                rw [List.chain'_cons']
                exact ⟨fun y _ hcon => absurd hcon.1 (by simp [hwe]), ih3.2⟩
      · rw [show sppGo none (c :: rest) = c :: sppGo none rest from by
          simp [sppGo, hc]]
        have ihr := ih rest (by omega) (fun d hd => h1 d (by simp [hd])) h2.tail
        refine ⟨?_, ?_⟩
        · intro d hd
          rcases List.mem_cons.mp hd with rfl | hd
          · exact h1 d (by simp)
          · exact ihr.1 d hd
        · rw [List.chain'_cons']
          refine ⟨?_, ihr.2⟩
          intro y hy
          cases rest with
          | nil => simp [sppGo] at hy
          | cons e r3 =>
            obtain ⟨z, hz⟩ := sppGo_none_front r3 e
            rw [hz] at hy
            simp at hy
            subst hy
            exact (List.chain'_cons'.mp h2).1 e (by simp)

/-- The terminator-capital substitution preserves whitespace normal
form. -/
theorem subPunctUpper_wsn :
    ∀ (n : Nat) (s : List Char), s.length ≤ n →
      (∀ c ∈ s, isWs c = true → c = ' ') →
      List.Chain' (fun a b => ¬(isWs a = true ∧ isWs b = true)) s →
      (∀ c ∈ subPunctUpper s, isWs c = true → c = ' ') ∧
      List.Chain' (fun a b => ¬(isWs a = true ∧ isWs b = true))
        (subPunctUpper s) := by
  intro n
  induction n with
  | zero =>
    intro s hlen _ _
    rw [List.length_eq_zero.mp (Nat.le_zero.mp hlen)]
    exact ⟨by simp [subPunctUpper], by simp [subPunctUpper]⟩
  | succ n ih =>
    intro s hlen h1 h2
    cases s with
    | nil => exact ⟨by simp [subPunctUpper], by simp [subPunctUpper]⟩
    | cons a rest =>
      cases rest with
      | nil => exact ⟨h1, h2⟩
      | cons d rest2 =>
        simp only [List.length_cons] at hlen
        by_cases hm : (isTerm a && isUpper d) = true
        · obtain ⟨ha, hd⟩ := Bool.and_eq_true .. ▸ hm
          have haw : isWs a = false := isTerm_not_isWs ha
          have hdw : isWs d = false := isUpper_not_isWs hd
          rw [show subPunctUpper (a :: d :: rest2)
              = a :: ' ' :: d :: subPunctUpper rest2 from by
            simp [subPunctUpper, hm]]
          have ih2 := ih rest2 (by omega)
            (fun e he => h1 e (by simp [he])) h2.tail.tail
          refine ⟨?_, ?_⟩
          · intro e he
            rcases List.mem_cons.mp he with rfl | he
            · intro hws; rw [hws] at haw; exact absurd haw (by decide)
            rcases List.mem_cons.mp he with rfl | he
            · intro _; rfl
            rcases List.mem_cons.mp he with rfl | he
            · intro hws; rw [hws] at hdw; exact absurd hdw (by decide)
            · exact ih2.1 e he
          · rw [List.chain'_cons']
            refine ⟨fun y _ hcon => absurd hcon.1 (by simp [haw]), ?_⟩
            rw [List.chain'_cons']
            refine ⟨?_, ?_⟩
            · intro y hy
              simp at hy
              subst hy
              intro hcon
              exact absurd hcon.2 (by simp [hdw])
            · rw [List.chain'_cons']
              exact ⟨fun y _ hcon => absurd hcon.1 (by simp [hdw]), ih2.2⟩
        · rw [show subPunctUpper (a :: d :: rest2)
              = a :: subPunctUpper (d :: rest2) from by
            simp [subPunctUpper, Bool.not_eq_true _ ▸ hm]]
          have ih2 := ih (d :: rest2) (by simp; omega)
            (fun e he => h1 e (by simp [he])) h2.tail
          refine ⟨?_, ?_⟩
          · intro e he
            rcases List.mem_cons.mp he with rfl | he
            · exact h1 e (by simp)
            · exact ih2.1 e he
          · rw [List.chain'_cons']
            refine ⟨?_, ih2.2⟩
            intro y hy
            obtain ⟨z, hz⟩ := subPunctUpper_cons_front rest2 d
            rw [hz] at hy
            simp at hy
            subst hy
            exact (List.chain'_cons'.mp h2).1 d (by simp)

/-- After the terminator-capital substitution, no terminator is
immediately followed by an ASCII capital. -/
theorem subPunctUpper_noPU :
    ∀ (n : Nat) (s : List Char), s.length ≤ n →
      List.Chain' (fun a b => ¬(isTerm a = true ∧ isUpper b = true))
        (subPunctUpper s) := by
  intro n
  induction n with
  | zero =>
    intro s hlen
    rw [List.length_eq_zero.mp (Nat.le_zero.mp hlen)]
    simp [subPunctUpper]
  | succ n ih =>
    intro s hlen
    cases s with
    | nil => simp [subPunctUpper]
    | cons a rest =>
      cases rest with
      | nil => exact List.chain'_singleton _
      | cons d rest2 =>
        simp only [List.length_cons] at hlen
        by_cases hm : (isTerm a && isUpper d) = true
        · obtain ⟨ha, hd⟩ := Bool.and_eq_true .. ▸ hm
          rw [show subPunctUpper (a :: d :: rest2)
              = a :: ' ' :: d :: subPunctUpper rest2 from by
            simp [subPunctUpper, hm]]
          rw [List.chain'_cons']
          refine ⟨?_, ?_⟩
          · intro y hy
            simp at hy
            subst hy
            intro hcon
            exact absurd hcon.2 (by decide)
          rw [List.chain'_cons']
          refine ⟨fun y _ hcon => absurd hcon.1 (by decide), ?_⟩
          rw [List.chain'_cons']
          exact ⟨fun y _ hcon => absurd hcon.1 (by simp [isUpper_not_isTerm hd]),
            ih rest2 (by omega)⟩
        · rw [show subPunctUpper (a :: d :: rest2)
              = a :: subPunctUpper (d :: rest2) from by
            simp [subPunctUpper, Bool.not_eq_true _ ▸ hm]]
          rw [List.chain'_cons']
          refine ⟨?_, ih (d :: rest2) (by simp; omega)⟩
          intro y hy
          obtain ⟨z, hz⟩ := subPunctUpper_cons_front rest2 d
          rw [hz] at hy
          simp at hy
          subst hy
          intro hcon
          rw [hcon.1, hcon.2] at hm
          exact absurd hm (by decide)

/-- The terminator-capital substitution fixes text with no
terminator-capital adjacency. -/
theorem subPunctUpper_eq_self_of_noPU :
    ∀ (n : Nat) (s : List Char), s.length ≤ n →
      List.Chain' (fun a b => ¬(isTerm a = true ∧ isUpper b = true)) s →
      subPunctUpper s = s := by
  intro n
  induction n with
  | zero =>
    intro s hlen _
    rw [List.length_eq_zero.mp (Nat.le_zero.mp hlen)]
    rfl
  | succ n ih =>
    intro s hlen h
    cases s with
    | nil => rfl
    | cons a rest =>
      cases rest with
      | nil => rfl
      | cons d rest2 =>
        simp only [List.length_cons] at hlen
        have hm : (isTerm a && isUpper d) = false := by
          cases hta : isTerm a with
          | false => rfl
          | true =>
            cases htd : isUpper d with
            | false => simp
            | true =>
              exact absurd ⟨hta, htd⟩ ((List.chain'_cons'.mp h).1 d (by simp))
        rw [show subPunctUpper (a :: d :: rest2)
            = a :: subPunctUpper (d :: rest2) from by
          simp [subPunctUpper, hm], ih (d :: rest2) (by simp; omega) h.tail]

/-- Pending-state pair scan over a residue with no non-whitespace
character: the pending terminator and the buffers are flushed verbatim. -/
theorem sppGo_pend_nil :
    ∀ (rest : List Char) (t : Char) (ws : List Char),
      rest.dropWhile isWs = [] →
      sppGo (some (t, ws)) rest = t :: (ws.reverse ++ rest) := by
  intro rest
  induction rest with
  | nil => intro t ws _; simp [sppGo]
  | cons c r ih =>
    intro t ws h
    have hc : isWs c = true := by
      by_contra hcc
      rw [List.dropWhile_cons_of_neg hcc] at h
      exact absurd h (by simp)
    rw [List.dropWhile_cons_of_pos hc] at h
    rw [show sppGo (some (t, ws)) (c :: r) = sppGo (some (t, c :: ws)) r from by
      simp [sppGo, isWs_not_isTerm hc, hc], ih t (c :: ws) h]
    simp

/-- Pending-state pair scan whose next non-whitespace character is a
terminator: the pair is emitted with a single separating space. -/
theorem sppGo_pend_term :
    ∀ (rest : List Char) (t : Char) (ws : List Char) (d : Char) (r2 : List Char),
      rest.dropWhile isWs = d :: r2 → isTerm d = true →
      sppGo (some (t, ws)) rest = t :: ' ' :: d :: sppGo none r2 := by
  intro rest
  induction rest with
  | nil => intro t ws d r2 h _; exact absurd h (by simp)
  | cons c r ih =>
    intro t ws d r2 h hd
    by_cases hc : isWs c = true
    · rw [List.dropWhile_cons_of_pos hc] at h
      rw [show sppGo (some (t, ws)) (c :: r) = sppGo (some (t, c :: ws)) r from by
        simp [sppGo, isWs_not_isTerm hc, hc]]
      exact ih t (c :: ws) d r2 h hd
    · rw [List.dropWhile_cons_of_neg hc] at h
      injection h with h1 h2
      subst h1
      subst h2
      simp [sppGo, hd]

/-- Pending-state pair scan whose next non-whitespace character is not a
terminator: the pending terminator and buffered whitespace are flushed. -/
theorem sppGo_pend_flush :
    ∀ (rest : List Char) (t : Char) (ws : List Char) (d : Char) (r2 : List Char),
      rest.dropWhile isWs = d :: r2 → isTerm d = false →
      sppGo (some (t, ws)) rest
        = t :: (ws.reverse ++ rest.takeWhile isWs ++ (d :: sppGo none r2)) := by
  intro rest
  induction rest with
  | nil => intro t ws d r2 h _; exact absurd h (by simp)
  | cons c r ih =>
    intro t ws d r2 h hd
    by_cases hc : isWs c = true
    · rw [List.dropWhile_cons_of_pos hc] at h
      rw [show sppGo (some (t, ws)) (c :: r) = sppGo (some (t, c :: ws)) r from by
        simp [sppGo, isWs_not_isTerm hc, hc], ih t (c :: ws) d r2 h hd,
        List.takeWhile_cons_of_pos hc]
      simp
    · rw [List.dropWhile_cons_of_neg hc] at h
      injection h with h1 h2
      subst h1
      subst h2
      have hcb : isWs c = false := Bool.not_eq_true _ ▸ hc
      rw [show sppGo (some (t, ws)) (c :: r)
          = t :: (ws.reverse ++ c :: sppGo none r) from by
        simp [sppGo, hd, hcb], List.takeWhile_cons_of_neg hc]
      simp

/-- The pair scan copies a terminator-free block verbatim. -/
theorem sppGo_nonterm_front_append :
    ∀ (w : List Char), (∀ c ∈ w, isTerm c = false) → ∀ (x : List Char),
      sppGo none (w ++ x) = w ++ sppGo none x := by
  intro w
  induction w with
  | nil => intro _ x; rfl
  | cons a w2 ih =>
    intro hw x
    rw [List.cons_append, show sppGo none (a :: (w2 ++ x))
        = a :: sppGo none (w2 ++ x) from by simp [sppGo, hw a (by simp)],
      ih (fun d hd => hw d (by simp [hd])) x, List.cons_append]

/-- The terminator-capital substitution fixes terminator-free text. -/
theorem subPunctUpper_id_nonterm (l : List Char)
    (hl : ∀ c ∈ l, isTerm c = false) : subPunctUpper l = l := by
  have h := subPunctUpper_nonterm_append l hl []
  simpa [subPunctUpper] using h

/-- The pair substitution is idempotent. -/
theorem sppGo_none_idem :
    ∀ (n : Nat) (s : List Char), s.length ≤ n →
      sppGo none (sppGo none s) = sppGo none s := by
  intro n
  induction n with
  | zero =>
    intro s hlen
    rw [List.length_eq_zero.mp (Nat.le_zero.mp hlen)]
    rfl
  | succ n ih =>
    intro s hlen
    cases s with
    | nil => rfl
    | cons c rest =>
      simp only [List.length_cons] at hlen
      by_cases hc : isTerm c = true
      · rcases hdw : rest.dropWhile isWs with _ | ⟨d, r2⟩
        · have E : sppGo none (c :: rest) = c :: rest := by
            rw [show sppGo none (c :: rest) = sppGo (some (c, [])) rest from by
              simp [sppGo, hc], sppGo_pend_nil rest c [] hdw]
            simp
          rw [E]
          exact E
        · have hr2len : r2.length ≤ n := by
            have hl := dropWhile_length_le isWs rest
            rw [hdw] at hl
            simp at hl
            omega
          by_cases hdt : isTerm d = true
          · have E : sppGo none (c :: rest) = c :: ' ' :: d :: sppGo none r2 := by
              rw [show sppGo none (c :: rest) = sppGo (some (c, [])) rest from by
                simp [sppGo, hc], sppGo_pend_term rest c [] d r2 hdw hdt]
            rw [E]
            rw [show sppGo none (c :: ' ' :: d :: sppGo none r2)
                = sppGo (some (c, [])) (' ' :: d :: sppGo none r2) from by
              simp [sppGo, hc],
              show sppGo (some (c, [])) (' ' :: d :: sppGo none r2)
                = sppGo (some (c, [' '])) (d :: sppGo none r2) from by
              simp [sppGo, (by decide : isTerm ' ' = false),
                (by decide : isWs ' ' = true)],
              show sppGo (some (c, [' '])) (d :: sppGo none r2)
                = c :: ' ' :: d :: sppGo none (sppGo none r2) from by
              simp [sppGo, hdt],
              ih r2 hr2len]
          · have hdt2 : isTerm d = false := Bool.not_eq_true _ ▸ hdt
            have htw : ∀ e ∈ rest.takeWhile isWs, isWs e = true :=
              fun e he => List.mem_takeWhile_imp he
            have hdnw : isWs d = false := dropWhile_cons_head_false rest d r2 hdw
            have E : sppGo none (c :: rest)
                = c :: (rest.takeWhile isWs ++ (d :: sppGo none r2)) := by
              rw [show sppGo none (c :: rest) = sppGo (some (c, [])) rest from by
                simp [sppGo, hc], sppGo_pend_flush rest c [] d r2 hdw hdt2]
              simp
            rw [E]
            have hdw2 : (rest.takeWhile isWs ++ (d :: sppGo none r2)).dropWhile isWs
                = d :: sppGo none r2 := by
              rw [dropWhile_all_append _ htw,
                List.dropWhile_cons_of_neg (by simp [hdnw])]
            have htw2 : (rest.takeWhile isWs ++ (d :: sppGo none r2)).takeWhile isWs
                = rest.takeWhile isWs := by
              rw [takeWhile_all_append _ htw,
                List.takeWhile_cons_of_neg (by simp [hdnw]), List.append_nil]
            rw [show sppGo none (c :: (rest.takeWhile isWs ++ (d :: sppGo none r2)))
                = sppGo (some (c, [])) (rest.takeWhile isWs ++ (d :: sppGo none r2))
                from by simp [sppGo, hc],
              sppGo_pend_flush _ c [] d (sppGo none r2) hdw2 hdt2, htw2,
              ih r2 hr2len]
            simp
      · rw [show sppGo none (c :: rest) = c :: sppGo none rest from by
          simp [sppGo, hc]]
        rw [show sppGo none (c :: sppGo none rest)
            = c :: sppGo none (sppGo none rest) from by simp [sppGo, hc],
          ih rest (by omega)]

/-- Text fixed by the pair substitution stays fixed after the
terminator-capital substitution. -/
theorem sppGo_fixed_subPunctUpper :
    ∀ (n : Nat) (s : List Char), s.length ≤ n → sppGo none s = s →
      sppGo none (subPunctUpper s) = subPunctUpper s := by
  intro n
  induction n with
  | zero =>
    intro s hlen _
    rw [List.length_eq_zero.mp (Nat.le_zero.mp hlen)]
    rfl
  | succ n ih =>
    intro s hlen h
    cases s with
    | nil => rfl
    | cons c s1 =>
      cases s1 with
      | nil => simpa [subPunctUpper] using h
      | cons d rest =>
        simp only [List.length_cons] at hlen
        by_cases hm : (isTerm c && isUpper d) = true
        · obtain ⟨hct, hdu⟩ := Bool.and_eq_true .. ▸ hm
          have hdnt : isTerm d = false := isUpper_not_isTerm hdu
          have hdnw : isWs d = false := isUpper_not_isWs hdu
          rw [show sppGo none (c :: d :: rest) = c :: d :: sppGo none rest from by
            simp [sppGo, hct, hdnt, hdnw]] at h
          simp only [List.cons.injEq] at h
          have hrest : sppGo none rest = rest := h.2.2
          rw [show subPunctUpper (c :: d :: rest)
              = c :: ' ' :: d :: subPunctUpper rest from by simp [subPunctUpper, hm]]
          rw [show sppGo none (c :: ' ' :: d :: subPunctUpper rest)
              = c :: ' ' :: d :: sppGo none (subPunctUpper rest) from by
            simp [sppGo, hct, hdnt, hdnw, (by decide : isTerm ' ' = false),
              (by decide : isWs ' ' = true)],
            ih rest (by omega) hrest]
        · by_cases hcnt : isTerm c = true
          · by_cases hdws : isWs d = true
            · have hdnt : isTerm d = false := isWs_not_isTerm hdws
              rcases hdrop : rest.dropWhile isWs with _ | ⟨f, r2⟩
              · have hallws : ∀ e ∈ rest, isWs e = true :=
                  List.dropWhile_eq_nil_iff.mp hdrop
                have hP3 : subPunctUpper (d :: rest) = d :: rest :=
                  subPunctUpper_id_nonterm _ (by
                    intro e he
                    rcases List.mem_cons.mp he with rfl | he2
                    · exact hdnt
                    · exact isWs_not_isTerm (hallws e he2))
                rw [show subPunctUpper (c :: d :: rest)
                    = c :: subPunctUpper (d :: rest) from by
                  simp [subPunctUpper, Bool.not_eq_true _ ▸ hm], hP3]
                exact h
              · have hfnw : isWs f = false := dropWhile_cons_head_false rest f r2 hdrop
                have hsplit : rest.takeWhile isWs ++ (f :: r2) = rest := by
                  have hx := List.takeWhile_append_dropWhile isWs rest
                  rw [hdrop] at hx
                  exact hx
                have htk : ∀ e ∈ rest.takeWhile isWs, isWs e = true :=
                  fun e he => List.mem_takeWhile_imp he
                have hr2len : r2.length ≤ n := by
                  have hl := dropWhile_length_le isWs rest
                  rw [hdrop] at hl
                  simp at hl
                  omega
                rw [show sppGo none (c :: d :: rest) = sppGo (some (c, [d])) rest
                  from by simp [sppGo, hcnt, hdnt, hdws]] at h
                by_cases hft : isTerm f = true
                · rw [sppGo_pend_term rest c [d] f r2 hdrop hft] at h
                  simp only [List.cons.injEq] at h
                  obtain ⟨-, hsp, hrest⟩ := h
                  subst hsp
                  have hr2fix : sppGo none r2 = r2 := by
                    rw [← hrest] at hdrop
                    rw [List.dropWhile_cons_of_neg
                      (by simp [isTerm_not_isWs hft])] at hdrop
                    simp only [List.cons.injEq] at hdrop
                    exact hdrop.2
                  have hrest2 : rest = f :: r2 := by rw [← hrest, hr2fix]
                  subst hrest2
                  cases r2 with
                  | nil =>
                    rw [show subPunctUpper (c :: ' ' :: f :: [])
                        = c :: ' ' :: f :: [] from by
                      simp [subPunctUpper, Bool.not_eq_true _ ▸ hm,
                        (by decide : isTerm ' ' = false)]]
                    simp [sppGo, hcnt, hft, (by decide : isTerm ' ' = false),
                      (by decide : isWs ' ' = true)]
                  | cons g r4 =>
                    by_cases hmg : (isTerm f && isUpper g) = true
                    · obtain ⟨-, hgu⟩ := Bool.and_eq_true .. ▸ hmg
                      have hgnt : isTerm g = false := isUpper_not_isTerm hgu
                      have hgnw : isWs g = false := isUpper_not_isWs hgu
                      have hr4 : sppGo none r4 = r4 := by
                        rw [show sppGo none (g :: r4) = g :: sppGo none r4 from by
                          simp [sppGo, hgnt]] at hr2fix
                        simp only [List.cons.injEq] at hr2fix
                        exact hr2fix.2
                      have ihr4 := ih r4 (by simp at hlen; omega) hr4
                      rw [show subPunctUpper (c :: ' ' :: f :: g :: r4)
                          = c :: ' ' :: f :: ' ' :: g :: subPunctUpper r4 from by
                        simp [subPunctUpper, (by decide : isUpper ' ' = false),
                          (by decide : isTerm ' ' = false), hmg]]
                      rw [show sppGo none (c :: ' ' :: f :: ' ' :: g :: subPunctUpper r4)
                          = c :: ' ' :: f :: ' ' :: g :: sppGo none (subPunctUpper r4)
                          from by simp [sppGo, hcnt, hft, hgnt, hgnw,
                            (by decide : isTerm ' ' = false),
                            (by decide : isWs ' ' = true)], ihr4]
                    · have ihr2 := ih (g :: r4) (by simp at hlen ⊢; omega) hr2fix
                      obtain ⟨z, hz⟩ := subPunctUpper_cons_front r4 g
                      rw [hz] at ihr2
                      rw [show subPunctUpper (c :: ' ' :: f :: g :: r4)
                          = c :: ' ' :: f :: subPunctUpper (g :: r4) from by
                        simp [subPunctUpper, (by decide : isUpper ' ' = false),
                          (by decide : isTerm ' ' = false),
                          Bool.not_eq_true _ ▸ hmg], hz]
                      rw [show sppGo none (c :: ' ' :: f :: g :: z)
                          = c :: ' ' :: f :: sppGo none (g :: z) from by
                        simp [sppGo, hcnt, hft, (by decide : isTerm ' ' = false),
                          (by decide : isWs ' ' = true)], ihr2]
                · have hft2 : isTerm f = false := Bool.not_eq_true _ ▸ hft
                  rw [sppGo_pend_flush rest c [d] f r2 hdrop hft2] at h
                  simp only [List.reverse_cons, List.reverse_nil, List.nil_append,
                    List.cons_append, List.singleton_append, List.append_assoc,
                    List.cons.injEq] at h
                  obtain ⟨-, -, hrest⟩ := h
                  have hr2fix : sppGo none r2 = r2 := by
                    have h3 := List.append_cancel_left (hrest.trans hsplit.symm)
                    simp only [List.cons.injEq] at h3
                    exact h3.2
                  have ihr2 := ih r2 hr2len hr2fix
                  have hP3 : subPunctUpper (d :: rest)
                      = d :: (rest.takeWhile isWs ++ (f :: subPunctUpper r2)) := by
                    conv_lhs => rw [← hsplit]
                    rw [show d :: (rest.takeWhile isWs ++ (f :: r2))
                        = (d :: rest.takeWhile isWs) ++ (f :: r2) from rfl,
                      subPunctUpper_nonterm_append (d :: rest.takeWhile isWs)
                        (by intro e he
                            rcases List.mem_cons.mp he with rfl | he2
                            · exact hdnt
                            · exact isWs_not_isTerm (htk e he2)) (f :: r2),
                      subPunctUpper_cons_nonterm r2 hft2]
                    simp
                  rw [show subPunctUpper (c :: d :: rest)
                      = c :: subPunctUpper (d :: rest) from by
                    simp [subPunctUpper, Bool.not_eq_true _ ▸ hm], hP3]
                  have hdw2 : (rest.takeWhile isWs ++ (f :: subPunctUpper r2)).dropWhile
                      isWs = f :: subPunctUpper r2 := by
                    rw [dropWhile_all_append _ htk,
                      List.dropWhile_cons_of_neg (by simp [hfnw])]
                  have htw2 : (rest.takeWhile isWs ++ (f :: subPunctUpper r2)).takeWhile
                      isWs = rest.takeWhile isWs := by
                    rw [takeWhile_all_append _ htk,
                      List.takeWhile_cons_of_neg (by simp [hfnw]), List.append_nil]
                  rw [show sppGo none
                        (c :: d :: (rest.takeWhile isWs ++ (f :: subPunctUpper r2)))
                      = sppGo (some (c, [d]))
                        (rest.takeWhile isWs ++ (f :: subPunctUpper r2)) from by
                    simp [sppGo, hcnt, hdnt, hdws],
                    sppGo_pend_flush _ c [d] f (subPunctUpper r2) hdw2 hft2, htw2,
                    ihr2]
                  simp
            · have hdnw : isWs d = false := Bool.not_eq_true _ ▸ hdws
              by_cases hdt : isTerm d = true
              · rw [show sppGo none (c :: d :: rest)
                    = c :: ' ' :: d :: sppGo none rest from by
                  simp [sppGo, hcnt, hdt]] at h
                simp only [List.cons.injEq] at h
                obtain ⟨-, hsp, -⟩ := h
                rw [← hsp] at hdnw
                exact absurd hdnw (by decide)
              · have hdt2 : isTerm d = false := Bool.not_eq_true _ ▸ hdt
                rw [show sppGo none (c :: d :: rest)
                    = c :: d :: sppGo none rest from by
                  simp [sppGo, hcnt, hdt2, hdnw]] at h
                simp only [List.cons.injEq] at h
                have hrest : sppGo none rest = rest := h.2.2
                have hsub : sppGo none (d :: rest) = d :: rest := by
                  simp [sppGo, hdt2, hrest]
                have ihsub := ih (d :: rest) (by simp; omega) hsub
                obtain ⟨z, hz⟩ := subPunctUpper_cons_front rest d
                rw [hz] at ihsub
                rw [show sppGo none (d :: z) = d :: sppGo none z from by
                  simp [sppGo, hdt2]] at ihsub
                simp only [List.cons.injEq] at ihsub
                have hzfix : sppGo none z = z := ihsub.2
                rw [show subPunctUpper (c :: d :: rest)
                    = c :: subPunctUpper (d :: rest) from by
                  simp [subPunctUpper, Bool.not_eq_true _ ▸ hm], hz]
                rw [show sppGo none (c :: d :: z) = c :: d :: sppGo none z from by
                  simp [sppGo, hcnt, hdt2, hdnw], hzfix]
          · have hcf : isTerm c = false := Bool.not_eq_true _ ▸ hcnt
            rw [show sppGo none (c :: d :: rest) = c :: sppGo none (d :: rest)
              from by simp [sppGo, hcf]] at h
            simp only [List.cons.injEq] at h
            have hsub : sppGo none (d :: rest) = d :: rest := h.2
            rw [show subPunctUpper (c :: d :: rest) = c :: subPunctUpper (d :: rest)
              from by simp [subPunctUpper, Bool.not_eq_true _ ▸ hm]]
            rw [show sppGo none (c :: subPunctUpper (d :: rest))
                = c :: sppGo none (subPunctUpper (d :: rest)) from by
              simp [sppGo, hcf], ih (d :: rest) (by simp; omega) hsub]

/-- Text fixed by the pair substitution stays fixed after removing an
all-whitespace suffix. -/
theorem sppGo_fixed_ws_suffix :
    ∀ (n : Nat) (y : List Char), y.length ≤ n → ∀ (w2 : List Char),
      (∀ c ∈ w2, isWs c = true) →
      sppGo none (y ++ w2) = y ++ w2 → sppGo none y = y := by
  intro n
  induction n with
  | zero =>
    intro y hlen _ _ _
    rw [List.length_eq_zero.mp (Nat.le_zero.mp hlen)]
    rfl
  | succ n ih =>
    intro y hlen w2 hw2 h
    cases y with
    | nil => rfl
    | cons c y2 =>
      simp only [List.length_cons] at hlen
      by_cases hc : isTerm c = true
      · rcases hdw : y2.dropWhile isWs with _ | ⟨d, r2⟩
        · rw [show sppGo none (c :: y2) = sppGo (some (c, [])) y2 from by
            simp [sppGo, hc], sppGo_pend_nil y2 c [] hdw]
          simp
        · have hdnw : isWs d = false := dropWhile_cons_head_false y2 d r2 hdw
          have hsplit : y2.takeWhile isWs ++ (d :: r2) = y2 := by
            have hx := List.takeWhile_append_dropWhile isWs y2
            rw [hdw] at hx
            exact hx
          have hr2len : r2.length ≤ n := by
            have hl := dropWhile_length_le isWs y2
            rw [hdw] at hl
            simp at hl
            omega
          rw [List.cons_append, show sppGo none (c :: (y2 ++ w2))
              = sppGo (some (c, [])) (y2 ++ w2) from by simp [sppGo, hc]] at h
          by_cases hdt : isTerm d = true
          · rw [sppGo_pend_term (y2 ++ w2) c [] d (r2 ++ w2)
              (dropWhile_append_ne y2 d r2 w2 hdw) hdt] at h
            simp only [List.cons.injEq] at h
            obtain ⟨-, htail⟩ := h
            rcases htk2 : y2.takeWhile isWs with _ | ⟨w1, tkr⟩
            · rw [htk2, List.nil_append] at hsplit
              rw [← hsplit, List.cons_append] at htail
              simp only [List.cons.injEq] at htail
              obtain ⟨hspd, -⟩ := htail
              rw [← hspd] at hdt
              exact absurd hdt (by decide)
            · rw [← hsplit, htk2] at htail
              simp only [List.cons_append, List.append_assoc,
                List.cons.injEq] at htail
              obtain ⟨hspw, htail2⟩ := htail
              cases tkr with
              | cons e tkr2 =>
                simp only [List.cons_append, List.cons.injEq] at htail2
                obtain ⟨hde, -⟩ := htail2
                have hew : isWs e = true :=
                  List.mem_takeWhile_imp (by rw [htk2]; simp)
                rw [← hde] at hew
                rw [hew] at hdnw
                exact absurd hdnw (by decide)
              | nil =>
                simp only [List.nil_append, List.cons_append,
                  List.cons.injEq] at htail2
                obtain ⟨-, hXfix⟩ := htail2
                have hr2 : sppGo none r2 = r2 := ih r2 hr2len w2 hw2 hXfix
                rw [show sppGo none (c :: y2) = sppGo (some (c, [])) y2 from by
                  simp [sppGo, hc], sppGo_pend_term y2 c [] d r2 hdw hdt, hr2,
                  ← hsplit, htk2, ← hspw]
                simp
          · have hdt2 : isTerm d = false := Bool.not_eq_true _ ▸ hdt
            rw [sppGo_pend_flush (y2 ++ w2) c [] d (r2 ++ w2)
              (dropWhile_append_ne y2 d r2 w2 hdw) hdt2,
              takeWhile_append_ne y2 d r2 w2 hdw] at h
            simp only [List.reverse_nil, List.nil_append, List.cons.injEq] at h
            obtain ⟨-, htail⟩ := h
            have htail2 : y2.takeWhile isWs ++ (d :: sppGo none (r2 ++ w2))
                = y2.takeWhile isWs ++ (d :: (r2 ++ w2)) := by
              rw [htail]
              conv_lhs => rw [← hsplit]
              simp [List.append_assoc]
            have hXfix := List.append_cancel_left htail2
            simp only [List.cons.injEq] at hXfix
            have hr2 : sppGo none r2 = r2 := ih r2 hr2len w2 hw2 hXfix.2
            rw [show sppGo none (c :: y2) = sppGo (some (c, [])) y2 from by
              simp [sppGo, hc], sppGo_pend_flush y2 c [] d r2 hdw hdt2, hr2]
            simp [hsplit]
      · have hcf : isTerm c = false := Bool.not_eq_true _ ▸ hc
        rw [List.cons_append, show sppGo none (c :: (y2 ++ w2))
            = c :: sppGo none (y2 ++ w2) from by simp [sppGo, hcf]] at h
        simp only [List.cons.injEq] at h
        have hsub := ih y2 (by omega) w2 hw2 h.2
        rw [show sppGo none (c :: y2) = c :: sppGo none y2 from by
          simp [sppGo, hcf], hsub]

/-- Text fixed by the pair substitution stays fixed after stripping. -/
theorem sppGo_fixed_pyStrip (s : List Char) (h : sppGo none s = s) :
    sppGo none (pyStrip s) = pyStrip s := by
  obtain ⟨u, v, he, hu, hv⟩ := pyStrip_split s
  set y := pyStrip s with hy
  have hu2 : ∀ c ∈ u, isTerm c = false := fun c hc => isWs_not_isTerm (hu c hc)
  rw [he, List.append_assoc, sppGo_nonterm_front_append u hu2 (y ++ v)] at h
  have h2 := List.append_cancel_left h
  exact sppGo_fixed_ws_suffix y.length y (le_refl _) v hv h2

/-- The case-insensitive replacement fixes text with no occurrence. -/
theorem replaceCI_eq_self {p : Char} {ps rep : List Char} :
    ∀ (s : List Char), containsCI p ps s = false → replaceCI p ps rep s = s := by
  intro s
  induction s with
  | nil => intro _; rfl
  | cons c rest ih =>
    intro h
    simp only [containsCI, Bool.or_eq_false_iff] at h
    show replaceCIF p ps rep (rest.length + 1) (c :: rest) = c :: rest
    rw [show replaceCIF p ps rep (rest.length + 1) (c :: rest)
        = c :: replaceCIF p ps rep rest.length rest from by
      simp [replaceCIF, h.1],
      show replaceCIF p ps rep rest.length rest = replaceCI p ps rep rest from rfl,
      ih h.2]

/-- A fold of abbreviation substitutions that each fix the text fixes the
text. -/
theorem foldl_applyAbbrev_id :
    ∀ (l : List (List Char × List Char)) (s : List Char),
      (∀ pr ∈ l, applyAbbrev s pr = s) → List.foldl applyAbbrev s l = s := by
  intro l
  induction l with
  | nil => intro s _; rfl
  | cons a l2 ih =>
    intro s h
    rw [List.foldl_cons, h a (by simp)]
    exact ih s (fun pr hpr => h pr (by simp [hpr]))

/-- The abbreviation loop fixes text containing no abbreviation
occurrence. -/
theorem applyAbbrevs_eq_self (s : List Char) (h : hasAbbrev s = false) :
    applyAbbrevs s = s := by
  have hnone : ∀ pr ∈ abbreviations,
      (match pr.1 with
       | p :: ps => containsCI p ps s
       | [] => false) = false := by
    intro pr hpr
    cases hq : (match pr.1 with
       | p :: ps => containsCI p ps s
       | [] => false) with
    | false => rfl
    | true =>
      have : hasAbbrev s = true := by
        simp only [hasAbbrev, List.any_eq_true]
        exact ⟨pr, hpr, hq⟩
      rw [this] at h
      exact absurd h (by decide)
  refine foldl_applyAbbrev_id abbreviations s ?_
  intro pr hpr
  have hm := hnone pr hpr
  rcases pr with ⟨pl, rep⟩
  cases pl with
  | nil => rfl
  | cons p ps =>
    show replaceCI p ps rep s = s
    exact replaceCI_eq_self s hm

/-- The number-wrapping scan fixes digit-free text. -/
theorem nwGo_none_eq_self :
    ∀ (s : List Char), (∀ c ∈ s, isDigit c = false) → ∀ (pw : Bool),
      nwGo none pw s = s := by
  intro s
  induction s with
  | nil => intro _ pw; rfl
  | cons c rest ih =>
    intro h pw
    rw [show nwGo none pw (c :: rest) = c :: nwGo none (isWordChar c) rest from by
      simp [nwGo, h c (by simp)],
      ih (fun d hd => h d (by simp [hd])) (isWordChar c)]

/-- An occurrence surviving the first three cleaning stages was already an
occurrence of the raw input, for whitespace-free patterns. -/
theorem containsCI_clean_stages {p : Char} {ps : List Char}
    (hp : ∀ c ∈ p :: ps, isWs (lowerCI c) = false) (x : List Char)
    (h : containsCI p ps (subPunctUpper (sppGo none (collapseWs x))) = true) :
    containsCI p ps x = true := by
  have h2 := containsCI_subPunctUpper hp (sppGo none (collapseWs x)).length
    (sppGo none (collapseWs x)) (le_refl _) h
  have h3 := containsCI_sppGo hp (collapseWs x) none (by simp) h2
  simp only [List.nil_append] at h3
  exact containsCI_collapseWs hp x h3

/-- An abbreviation occurrence after the first three cleaning stages was
already present in the raw input. -/
theorem hasAbbrev_stages (x : List Char)
    (h : hasAbbrev (subPunctUpper (sppGo none (collapseWs x))) = true) :
    hasAbbrev x = true := by
  simp only [hasAbbrev, List.any_eq_true] at h ⊢
  obtain ⟨pr, hpr, hmatch⟩ := h
  refine ⟨pr, hpr, ?_⟩
  simp only [abbreviations, List.mem_cons, List.not_mem_nil, or_false] at hpr
  rcases hpr with rfl | rfl | rfl | rfl | rfl | rfl | rfl | rfl | rfl
  · exact containsCI_clean_stages (by decide) x hmatch
  · exact containsCI_clean_stages (by decide) x hmatch
  · exact containsCI_clean_stages (by decide) x hmatch
  · exact containsCI_clean_stages (by decide) x hmatch
  · exact containsCI_clean_stages (by decide) x hmatch
  · exact containsCI_clean_stages (by decide) x hmatch
  · exact containsCI_clean_stages (by decide) x hmatch
  · exact containsCI_clean_stages (by decide) x hmatch
  · exact containsCI_clean_stages (by decide) x hmatch

/-- An abbreviation occurrence in stripped text is one of the unstripped
text. -/
theorem hasAbbrev_pyStrip_imp (s : List Char)
    (h : hasAbbrev (pyStrip s) = true) : hasAbbrev s = true := by
  simp only [hasAbbrev, List.any_eq_true] at h ⊢
  obtain ⟨pr, hpr, hmatch⟩ := h
  refine ⟨pr, hpr, ?_⟩
  rcases pr with ⟨pl, rep⟩
  cases pl with
  | nil => exact hmatch
  | cons p ps => exact containsCI_pyStrip s hmatch

/-- A digit after the first three cleaning stages was already a digit of
the raw input. -/
theorem hasDigit_stages (x : List Char)
    (h : hasDigit (subPunctUpper (sppGo none (collapseWs x))) = true) :
    hasDigit x = true := by
  simp only [hasDigit, List.any_eq_true] at h ⊢
  obtain ⟨c, hc, hdig⟩ := h
  rcases mem_subPunctUpper_or (sppGo none (collapseWs x)).length
    (sppGo none (collapseWs x)) (le_refl _) c hc with hc2 | hsp
  · rcases mem_sppGo_or (collapseWs x) none c hc2 with hc1 | hsp
    · simp only [List.nil_append] at hc1
      rcases mem_collapseWs_or x c hc1 with hc0 | hsp
      · exact ⟨c, hc0, hdig⟩
      · rw [hsp] at hdig; exact absurd hdig (by decide)
    · rw [hsp] at hdig; exact absurd hdig (by decide)
  · rw [hsp] at hdig; exact absurd hdig (by decide)

/-- A digit in stripped text is a digit of the unstripped text. -/
theorem hasDigit_pyStrip_imp (s : List Char)
    (h : hasDigit (pyStrip s) = true) : hasDigit s = true := by
  simp only [hasDigit, List.any_eq_true] at h ⊢
  obtain ⟨c, hc, hdig⟩ := h
  obtain ⟨u, v, he, -, -⟩ := pyStrip_split s
  exact ⟨c, by rw [he]; simp [hc], hdig⟩

/-- C2, counterexample.  Cleaning is not idempotent: a standalone digit is
wrapped in a say-as tag whose inner digit gets wrapped again on the second
pass; and expanding an abbreviation can create a new abbreviation
occurrence ("obs.bs." expands to "observaçãobs.", which contains a fresh
"obs." matched on the next pass), as well as expose a previously shadowed
terminator pair ("dr. .." cleans to "doutor ..", which the next pass turns
into "doutor . ."). -/
theorem c2_counterexample_not_idempotent :
    clean_text (clean_text "5".toList) ≠ clean_text "5".toList ∧
    clean_text (clean_text "dr. ..".toList) ≠ clean_text "dr. ..".toList ∧
    clean_text (clean_text "obs.bs.".toList) ≠ clean_text "obs.bs.".toList := by
  decide

/-- C2, amended.  Cleaning is idempotent on inputs that contain no ASCII
digit and no case-insensitive occurrence of an abbreviation-table pattern:
for such x, clean_text (clean_text x) = clean_text x.  (The counterexample
shows both exclusions are necessary: digit wrapping and abbreviation
expansion are the two self-interfering stages.) -/
theorem c2_amended_idempotent_without_digits_abbreviations (x : List Char)
    (hd : hasDigit x = false) (ha : hasAbbrev x = false) :
    clean_text (clean_text x) = clean_text x := by
  have hA3 : hasAbbrev (subPunctUpper (sppGo none (collapseWs x))) = false := by
    cases hq : hasAbbrev (subPunctUpper (sppGo none (collapseWs x))) with
    | false => rfl
    | true => rw [hasAbbrev_stages x hq] at ha; exact absurd ha (by decide)
  have hD3 : ∀ c ∈ subPunctUpper (sppGo none (collapseWs x)), isDigit c = false := by
    intro c hc
    cases hq : isDigit c with
    | false => rfl
    | true =>
      have hdz : hasDigit (subPunctUpper (sppGo none (collapseWs x))) = true := by
        simp only [hasDigit, List.any_eq_true]
        exact ⟨c, hc, hq⟩
      rw [hasDigit_stages x hdz] at hd
      exact absurd hd (by decide)
  have hclean : clean_text x = pyStrip (subPunctUpper (sppGo none (collapseWs x))) := by
    show pyStrip (numWrap (applyAbbrevs (subPunctUpper (sppGo none (collapseWs x)))))
      = pyStrip (subPunctUpper (sppGo none (collapseWs x)))
    rw [applyAbbrevs_eq_self _ hA3]
    have hnw : numWrap (subPunctUpper (sppGo none (collapseWs x)))
        = subPunctUpper (sppGo none (collapseWs x)) :=
      nwGo_none_eq_self _ hD3 false
    rw [hnw]
  rw [hclean]
  have h0 := collapseWs_wsn x
  have h1 := sppGo_none_wsn (collapseWs x).length (collapseWs x) (le_refl _)
    h0.1 h0.2
  have h2 := subPunctUpper_wsn (sppGo none (collapseWs x)).length
    (sppGo none (collapseWs x)) (le_refl _) h1.1 h1.2
  obtain ⟨u, v, he, -, -⟩ := pyStrip_split (subPunctUpper (sppGo none (collapseWs x)))
  have hymem : ∀ c ∈ pyStrip (subPunctUpper (sppGo none (collapseWs x))),
      c ∈ subPunctUpper (sppGo none (collapseWs x)) := by
    intro c hc
    rw [he]
    simp [hc]
  have hywsn1 : ∀ c ∈ pyStrip (subPunctUpper (sppGo none (collapseWs x))),
      isWs c = true → c = ' ' :=
    fun c hc => h2.1 c (hymem c hc)
  have hywsn2 : List.Chain' (fun a b => ¬(isWs a = true ∧ isWs b = true))
      (pyStrip (subPunctUpper (sppGo none (collapseWs x)))) := by
    have hz := h2.2
    rw [he] at hz
    exact chain_of_append_left (chain_of_append_right hz)
  have hW : collapseWs (pyStrip (subPunctUpper (sppGo none (collapseWs x))))
      = pyStrip (subPunctUpper (sppGo none (collapseWs x))) :=
    collapseWs_eq_self _ hywsn1 hywsn2
  have hfix2 : sppGo none (sppGo none (collapseWs x)) = sppGo none (collapseWs x) :=
    sppGo_none_idem (collapseWs x).length (collapseWs x) (le_refl _)
  have hfix3 : sppGo none (subPunctUpper (sppGo none (collapseWs x)))
      = subPunctUpper (sppGo none (collapseWs x)) :=
    sppGo_fixed_subPunctUpper (sppGo none (collapseWs x)).length
      (sppGo none (collapseWs x)) (le_refl _) hfix2
  have hP2 : sppGo none (pyStrip (subPunctUpper (sppGo none (collapseWs x))))
      = pyStrip (subPunctUpper (sppGo none (collapseWs x))) :=
    sppGo_fixed_pyStrip _ hfix3
  have hnoPU3 : List.Chain' (fun a b => ¬(isTerm a = true ∧ isUpper b = true))
      (subPunctUpper (sppGo none (collapseWs x))) :=
    subPunctUpper_noPU (sppGo none (collapseWs x)).length
      (sppGo none (collapseWs x)) (le_refl _)
  have hnoPUy : List.Chain' (fun a b => ¬(isTerm a = true ∧ isUpper b = true))
      (pyStrip (subPunctUpper (sppGo none (collapseWs x)))) := by
    rw [he] at hnoPU3
    exact chain_of_append_left (chain_of_append_right hnoPU3)
  have hP3 : subPunctUpper (pyStrip (subPunctUpper (sppGo none (collapseWs x))))
      = pyStrip (subPunctUpper (sppGo none (collapseWs x))) :=
    subPunctUpper_eq_self_of_noPU
      (pyStrip (subPunctUpper (sppGo none (collapseWs x)))).length _
      (le_refl _) hnoPUy
  have hAy : hasAbbrev (pyStrip (subPunctUpper (sppGo none (collapseWs x)))) = false := by
    cases hq : hasAbbrev (pyStrip (subPunctUpper (sppGo none (collapseWs x)))) with
    | false => rfl
    | true => rw [hasAbbrev_pyStrip_imp _ hq] at hA3; exact absurd hA3 (by decide)
  have hA : applyAbbrevs (pyStrip (subPunctUpper (sppGo none (collapseWs x))))
      = pyStrip (subPunctUpper (sppGo none (collapseWs x))) :=
    applyAbbrevs_eq_self _ hAy
  have hDy : ∀ c ∈ pyStrip (subPunctUpper (sppGo none (collapseWs x))),
      isDigit c = false := fun c hc => hD3 c (hymem c hc)
  have hN : numWrap (pyStrip (subPunctUpper (sppGo none (collapseWs x))))
      = pyStrip (subPunctUpper (sppGo none (collapseWs x))) :=
    nwGo_none_eq_self _ hDy false
  show pyStrip (numWrap (applyAbbrevs (subPunctUpper (sppGo none (collapseWs
    (pyStrip (subPunctUpper (sppGo none (collapseWs x)))))))))
    = pyStrip (subPunctUpper (sppGo none (collapseWs x)))
  rw [hW, hP2, hP3, hA, hN]
  exact pyStrip_idem _

/-- C2, witness.  A concrete digit-free, abbreviation-free sentence on
which the amended idempotence theorem applies. -/
theorem c2_witness :
    hasDigit "Oi, tudo bem? Sim!".toList = false ∧
    hasAbbrev "Oi, tudo bem? Sim!".toList = false ∧
    clean_text (clean_text "Oi, tudo bem? Sim!".toList)
      = clean_text "Oi, tudo bem? Sim!".toList :=
  ⟨by decide, by decide,
    c2_amended_idempotent_without_digits_abbreviations
      "Oi, tudo bem? Sim!".toList (by decide) (by decide)⟩
